import Mathlib

/-!
Shallow embedding of the degree-ledger core of `src/text.py`:
the `Blockchain` class (chain of blocks of degree records, block hashing,
in-place verification, JSON persistence) together with the pieces of the
upload/verification handlers that drive it.  Strings are modelled as Lean
`String`, byte strings as `List Char`, and the SHA-256 digest as an ideal
(collision-free) digest function.
-/

namespace HecChain

/-- A character that the JSON reader treats as whitespace. -/
def wsChar (c : Char) : Bool :=
  c.toNat = 32 || c.toNat = 10 || c.toNat = 9 || c.toNat = 13

/-- All characters of the list are JSON whitespace. -/
def isWsList (w : List Char) : Bool := w.all wsChar

/-- A character that `json.dumps` emits unescaped inside a string literal:
printable ASCII other than the double quote and the backslash. -/
def jsonSafeChar (c : Char) : Bool :=
  decide (32 ≤ c.toNat) && decide (c.toNat < 127) && !(decide (c.toNat = 34)) && !(decide (c.toNat = 92))

/-- Every character of the string is JSON-safe (needs no escaping). -/
def jsonSafeS (s : String) : Bool := s.toList.all jsonSafeChar

/-- JSON safety for an optional string field. -/
def jsonSafeO : Option String → Bool
  | none => true
  | some s => jsonSafeS s

/-- Lower-case hexadecimal digit for a value below 16. -/
def hexDigit (n : Nat) : Char :=
  if n < 10 then Char.ofNat (48 + n) else Char.ofNat (87 + n)

/-- Big-endian fixed-width hexadecimal rendering of `n` with `k` digits. -/
def hexN : Nat → Nat → List Char
  | 0, _ => []
  | k + 1, n => hexN k (n / 16) ++ [hexDigit (n % 16)]

/-- Model of `hashlib.sha256(data).hexdigest()`.  SHA-256 is modelled as an
ideal, collision-free digest over the input bytes: the model returns a hex
string that determines the input exactly (each character rendered as six hex
digits of its code point), so the model is injective and executable.  All
theorems below use only that the digest is a function of its input and that
distinct inputs have distinct digests. -/
def sha256hex (data : List Char) : String :=
  String.mk ((data.map (fun c => hexN 6 c.toNat)).flatten)

/-- The double-quote character. -/
def quoteChar : Char := Char.ofNat 34

/-- The backslash character. -/
def backslashChar : Char := Char.ofNat 92

/-- Four-digit hexadecimal escape payload. -/
def hex4 (n : Nat) : List Char := hexN 4 n

/-- Escaping of one character inside a JSON string literal, as performed by
`json.dumps` with its default `ensure_ascii=True`. -/
def escChar (c : Char) : List Char :=
  if c.toNat = 34 then [backslashChar, quoteChar]
  else if c.toNat = 92 then [backslashChar, backslashChar]
  else if c.toNat = 10 then [backslashChar, 'n']
  else if c.toNat = 9 then [backslashChar, 't']
  else if c.toNat = 13 then [backslashChar, 'r']
  else if c.toNat = 8 then [backslashChar, 'b']
  else if c.toNat = 12 then [backslashChar, 'f']
  else if c.toNat < 32 then backslashChar :: 'u' :: hex4 c.toNat
  else if c.toNat < 127 then [c]
  else if c.toNat < 65536 then backslashChar :: 'u' :: hex4 c.toNat
  else
    backslashChar :: 'u' :: hex4 (55296 + (c.toNat - 65536) / 1024) ++
      (backslashChar :: 'u' :: hex4 (56320 + (c.toNat - 65536) % 1024))

/-- JSON string literal for `s`, as emitted by `json.dumps`. -/
def jsonStr (s : String) : List Char :=
  quoteChar :: (s.toList.map escChar).flatten ++ [quoteChar]

/-- JSON rendering of an optional string: `null` for `None`. -/
def jsonOptStr : Option String → List Char
  | none => ['n', 'u', 'l', 'l']
  | some s => jsonStr s

/-- Decimal digit character. -/
def digitChar (n : Nat) : Char := Char.ofNat (48 + n)

/-- Decimal rendering of a natural number, as emitted for JSON integers. -/
def natToDec (n : Nat) : List Char :=
  if _h : n < 10 then [digitChar n]
  else natToDec (n / 10) ++ [digitChar (n % 10)]
termination_by n
decreasing_by exact Nat.div_lt_self (by omega) (by omega)

/-- A degree record, with the exact fields built by the upload handler
(src/text.py lines 229-239). -/
structure Degree where
  degree_id : String
  student_name : String
  degree_title : String
  institution : String
  issue_date : String
  document_hash : String
  status : String
  verified_by : Option String
  verification_date : Option String
deriving DecidableEq

/-- A block of the chain, with the exact fields built by
`Blockchain.create_block` (src/text.py lines 31-37). -/
structure Block where
  index : Nat
  timestamp : String
  degrees : List Degree
  previous_hash : String
  hash : String
deriving DecidableEq

/-- The mutable state of a `Blockchain` instance: the sealed chain and the
pending buffer (src/text.py lines 23-24). -/
structure State where
  chain : List Block
  pending_degrees : List Degree
deriving DecidableEq

/-! ### JSON serialization (`json.dumps`), compact and `indent=4` modes

`calculate_hash` serializes with `json.dumps(block, sort_keys=True)` (compact
default separators `", "` / `": "`); `save_blockchain` uses
`json.dump(chain, f, indent=4)` (item separator `","` followed by a newline
and indentation, key separator `": "`).  The mode parameter `none` is the
compact form, `some lv` the indented form at nesting level `lv`. -/

/-- `4 * lv` spaces of indentation. -/
def pad (lv : Nat) : List Char := List.replicate (4 * lv) ' '

/-- Newline followed by indentation at level `lv`. -/
def nlPad (lv : Nat) : List Char := Char.ofNat 10 :: pad lv

/-- Whitespace layout of a container: text after the opening bracket, text
after each item comma, text before the closing bracket. -/
def modeParts : Option Nat → List Char × List Char × List Char
  | none => ([], [' '], [])
  | some lv => (nlPad (lv + 1), nlPad (lv + 1), nlPad lv)

/-- Join rendered items with a separator. -/
def joinWith (sep : List Char) : List (List Char) → List Char
  | [] => []
  | [x] => x
  | x :: y :: ys => x ++ sep ++ joinWith sep (y :: ys)

/-- The opening curly brace character. -/
def lbrace : Char := Char.ofNat 123

/-- The closing curly brace character. -/
def rbrace : Char := Char.ofNat 125

/-- JSON object with the given pre-rendered `"key": value` fields. -/
def dumpObj (m : Option Nat) (fields : List (List Char)) : List Char :=
  lbrace :: (modeParts m).1 ++ joinWith (',' :: (modeParts m).2.1) fields ++
    (modeParts m).2.2 ++ [rbrace]

/-- JSON array with the given pre-rendered items. -/
def dumpArr (m : Option Nat) (items : List (List Char)) : List Char :=
  if items.isEmpty then ['[', ']']
  else '[' :: (modeParts m).1 ++ joinWith (',' :: (modeParts m).2.1) items ++
    (modeParts m).2.2 ++ [']']

/-- One `"key": value` field. -/
def kv (k : String) (v : List Char) : List Char := jsonStr k ++ ':' :: ' ' :: v

def kDegreeId : String := "degree_id"
def kDegreeTitle : String := "degree_title"
def kDocumentHash : String := "document_hash"
def kInstitution : String := "institution"
def kIssueDate : String := "issue_date"
def kStatus : String := "status"
def kStudentName : String := "student_name"
def kVerificationDate : String := "verification_date"
def kVerifiedBy : String := "verified_by"
def kDegrees : String := "degrees"
def kHash : String := "hash"
def kIndex : String := "index"
def kPreviousHash : String := "previous_hash"
def kTimestamp : String := "timestamp"

/-- The fields of a degree record in `sort_keys=True` order (used by
`calculate_hash`, whose `json.dumps` call passes `sort_keys=True`). -/
def degreeFieldsSorted (d : Degree) : List (List Char) :=
  [kv kDegreeId (jsonStr d.degree_id),
   kv kDegreeTitle (jsonStr d.degree_title),
   kv kDocumentHash (jsonStr d.document_hash),
   kv kInstitution (jsonStr d.institution),
   kv kIssueDate (jsonStr d.issue_date),
   kv kStatus (jsonStr d.status),
   kv kStudentName (jsonStr d.student_name),
   kv kVerificationDate (jsonOptStr d.verification_date),
   kv kVerifiedBy (jsonOptStr d.verified_by)]

/-- Compact `sort_keys=True` JSON rendering of a degree record. -/
def dumpDegreeSorted (d : Degree) : List Char := dumpObj none (degreeFieldsSorted d)

/-- The fields of a block in `sort_keys=True` order:
`degrees < hash < index < previous_hash < timestamp`. -/
def blockFieldsSorted (b : Block) : List (List Char) :=
  [kv kDegrees (dumpArr none (b.degrees.map dumpDegreeSorted)),
   kv kHash (jsonStr b.hash),
   kv kIndex (natToDec b.index),
   kv kPreviousHash (jsonStr b.previous_hash),
   kv kTimestamp (jsonStr b.timestamp)]

/-- Compact `sort_keys=True` JSON rendering of a block: exactly
`json.dumps(block, sort_keys=True)`. -/
def dumpBlockSorted (b : Block) : List Char := dumpObj none (blockFieldsSorted b)

/-- The fields of a degree record in Python dict insertion order, the order
the upload handler builds `degree_data` (src/text.py 229-239); this is the
order `json.dump` without `sort_keys` writes them to the persisted file. -/
def degreeFieldsIns (d : Degree) : List (List Char) :=
  [kv kDegreeId (jsonStr d.degree_id),
   kv kStudentName (jsonStr d.student_name),
   kv kDegreeTitle (jsonStr d.degree_title),
   kv kInstitution (jsonStr d.institution),
   kv kIssueDate (jsonStr d.issue_date),
   kv kDocumentHash (jsonStr d.document_hash),
   kv kStatus (jsonStr d.status),
   kv kVerifiedBy (jsonOptStr d.verified_by),
   kv kVerificationDate (jsonOptStr d.verification_date)]

/-- Indented (insertion-order) JSON rendering of a degree record at nesting
level `lv`, as written by `save_blockchain`. -/
def dumpDegreeSave (lv : Nat) (d : Degree) : List Char :=
  dumpObj (some lv) (degreeFieldsIns d)

/-- The fields of a block in dict insertion order, the order
`Blockchain.create_block` builds the block dict (src/text.py 31-37):
`index, timestamp, degrees, previous_hash, hash`. -/
def blockFieldsIns (lv : Nat) (b : Block) : List (List Char) :=
  [kv kIndex (natToDec b.index),
   kv kTimestamp (jsonStr b.timestamp),
   kv kDegrees (dumpArr (some (lv + 1)) (b.degrees.map (dumpDegreeSave (lv + 1 + 1)))),
   kv kPreviousHash (jsonStr b.previous_hash),
   kv kHash (jsonStr b.hash)]

/-- Indented (insertion-order) JSON rendering of a block at nesting level
`lv`, as written by `save_blockchain`. -/
def dumpBlockSave (lv : Nat) (b : Block) : List Char :=
  dumpObj (some lv) (blockFieldsIns lv b)

/-! ### The `Blockchain` operations -/

/-- `Blockchain.calculate_hash` (src/text.py 45-47): the sha256 hexdigest of
`json.dumps(block, sort_keys=True)` — compact separators, sorted keys, and
whatever the block's `hash` field currently holds (the empty string at the
point of the only call site). -/
def calculate_hash (block : Block) : String := sha256hex (dumpBlockSorted block)

/-- `Blockchain.create_block` (src/text.py 30-43): builds the block with
`hash = ''`, fills `hash` with `calculate_hash`, appends it to the chain and
clears the pending buffer.  `now` stands for `str(datetime.now())`. -/
def create_block (s : State) (now : String) (previous_hash : String) : Block × State :=
  let block0 : Block :=
    { index := s.chain.length + 1, timestamp := now, degrees := s.pending_degrees,
      previous_hash := previous_hash, hash := "" }
  let block : Block := { block0 with hash := calculate_hash block0 }
  (block, { chain := s.chain ++ [block], pending_degrees := [] })

/-- `Blockchain.add_degree` (src/text.py 49-51): append to the pending buffer. -/
def add_degree (s : State) (d : Degree) : State :=
  { s with pending_degrees := s.pending_degrees ++ [d] }

/-- `Blockchain.get_latest_block` (src/text.py 53-54): `self.chain[-1]`,
`none` modelling the `IndexError` on an empty chain. -/
def get_latest_block (s : State) : Option Block := s.chain.getLast?

def hecName : String := "Higher Education Commission"
def ibccName : String := "Inter Board Committee of Chairmen"

/-- The verifier registry `Blockchain.verifiers` (src/text.py 25). -/
def verifiers (code : String) : Option String :=
  if code = "HEC" then some hecName
  else if code = "IBCC" then some ibccName
  else none

/-- The in-place mutation performed on a matched record by
`Blockchain.verify_degree` (src/text.py 63-65). -/
def applyVerification (d : Degree) (status vname now : String) : Degree :=
  { d with status := status, verified_by := some vname, verification_date := some now }

/-- Inner loop of `verify_degree`: mutate the first record of the list whose
`degree_id` matches, or return `none`. -/
def verifyDegrees (ds : List Degree) (id status vname now : String) : Option (List Degree) :=
  match ds with
  | [] => none
  | d :: rest =>
    if d.degree_id = id then some (applyVerification d status vname now :: rest)
    else (verifyDegrees rest id status vname now).map (fun rest' => d :: rest')

/-- Outer loop of `verify_degree`: mutate the matching record inside the
first block that contains one, or return `none`. -/
def verifyChain (chain : List Block) (id status vname now : String) : Option (List Block) :=
  match chain with
  | [] => none
  | b :: rest =>
    match verifyDegrees b.degrees id status vname now with
    | some ds' => some ({ b with degrees := ds' } :: rest)
    | none => (verifyChain rest id status vname now).map (fun rest' => b :: rest')

/-- `Blockchain.verify_degree` (src/text.py 56-70): reject unknown verifiers,
then scan the chain and mutate the first matching record in place (no hash is
recomputed); returns the success boolean together with the new state. -/
def verify_degree (s : State) (degree_id status verifier now : String) : Bool × State :=
  match verifiers verifier with
  | none => (false, s)
  | some vname =>
    match verifyChain s.chain degree_id status vname now with
    | some chain' => (true, { s with chain := chain' })
    | none => (false, s)

/-- `Blockchain.save_blockchain` (src/text.py 81-87): the file content written
by `json.dump(self.chain, f, indent=4)` — indented, keys in dict insertion
order (no `sort_keys` here). -/
def save_blockchain (chain : List Block) : List Char :=
  dumpArr (some 0) (chain.map (dumpBlockSave 1))

/-! ### The upload handler (src/text.py 217-241) -/

/-- The `degree_id` derivation (src/text.py 226): sha256 hexdigest of the
concatenation of the five issuance fields. -/
def degreeIdOf (student_name degree_title institution issue_date document_hash : String) : String :=
  sha256hex (student_name ++ degree_title ++ institution ++ issue_date ++ document_hash).toList

def pendingStatus : String := "Pending"

/-- The `degree_data` record built by the upload handler (src/text.py 229-239). -/
def degreeData (student_name degree_title institution issue_date document_hash : String) : Degree :=
  { degree_id := degreeIdOf student_name degree_title institution issue_date document_hash,
    student_name := student_name, degree_title := degree_title, institution := institution,
    issue_date := issue_date, document_hash := document_hash,
    status := pendingStatus, verified_by := none, verification_date := none }

/-- A required field of the record is empty (Python truthiness of the five
inputs checked by the upload handler, src/text.py 218, expressed on the
record they produce). -/
def has_empty_required (d : Degree) : Bool :=
  d.student_name = "" || d.degree_title = "" || d.institution = "" ||
    d.issue_date = "" || d.document_hash = ""

/-- The `submit` operation of the spec: the upload handler's required-field
guard (src/text.py 218) followed by `Blockchain.add_degree` (49-51); `false`
models the `ValidationError` path in which nothing is buffered. -/
def submit (s : State) (d : Degree) : Bool × State :=
  if has_empty_required d then (false, s) else (true, add_degree s d)

/-- The upload handler happy path after the record is built
(src/text.py 240-241): `add_degree` then
`create_block(get_latest_block()['hash'])`; `none` models the exception on an
empty chain. -/
def upload_degree (s : State) (d : Degree) (now : String) : Option State :=
  match get_latest_block s with
  | none => none
  | some lb => some (create_block (add_degree s d) now lb.hash).2

/-! ### The JSON reader (`json.load`) for the persisted chain

`load_blockchain` calls `json.load` on the file written by `save_blockchain`.
The reader below models `json.load` on that grammar fragment: a JSON array of
block objects with the keys in the order the dumper writes them, arbitrary
interleaving whitespace, and string literals with the basic escapes. -/

/-- Drop leading JSON whitespace. -/
def skipWs : List Char → List Char
  | [] => []
  | c :: r => if wsChar c then skipWs r else c :: r

/-- Consume one expected (non-whitespace) character, after skipping
whitespace. -/
def parseChar (c : Char) (s : List Char) : Option (List Char) :=
  match skipWs s with
  | c' :: r => if c' = c then some r else none
  | [] => none

/-- Decode one single-character escape after a backslash (the `\uXXXX`
forms are decoded separately, in `parseStrBody`). -/
def unescChar (e : Char) : Option Char :=
  if e.toNat = 34 then some quoteChar
  else if e.toNat = 92 then some backslashChar
  else if e.toNat = 47 then some (Char.ofNat 47)
  else if e = 'n' then some (Char.ofNat 10)
  else if e = 't' then some (Char.ofNat 9)
  else if e = 'r' then some (Char.ofNat 13)
  else if e = 'b' then some (Char.ofNat 8)
  else if e = 'f' then some (Char.ofNat 12)
  else none

/-- Value of one hexadecimal digit, as accepted by `json.load` inside a
`\uXXXX` escape (both cases). -/
def hexVal (c : Char) : Option Nat :=
  if 48 ≤ c.toNat ∧ c.toNat ≤ 57 then some (c.toNat - 48)
  else if 97 ≤ c.toNat ∧ c.toNat ≤ 102 then some (c.toNat - 87)
  else if 65 ≤ c.toNat ∧ c.toNat ≤ 70 then some (c.toNat - 55)
  else none

/-- Value of a four-digit hexadecimal escape payload. -/
def hex4Val (h1 h2 h3 h4 : Char) : Option Nat :=
  match hexVal h1, hexVal h2, hexVal h3, hexVal h4 with
  | some a, some b, some c, some d => some (4096 * a + 256 * b + 16 * c + d)
  | _, _, _, _ => none

/-- Decode the low half of a `\uXXXX\uXXXX` surrogate pair: after a high
surrogate value `n`, expect a second `\uXXXX` whose value `m` is a low
surrogate, and recombine the two into the encoded code point as `json.load`
does.  Returns the decoded character and the total number of characters
(10) the pair's escape payload occupies. -/
def surrogatePair (n : Nat) : List Char → Option (Char × Nat)
  | b2 :: u2 :: g1 :: g2 :: g3 :: g4 :: _ =>
    if b2.toNat = 92 ∧ u2 = 'u' then
      (hex4Val g1 g2 g3 g4).bind (fun m =>
        if 56320 ≤ m ∧ m ≤ 57343 then
          some (Char.ofNat (65536 + 1024 * (n - 55296) + (m - 56320)), 10)
        else none)
    else none
  | _ => none

/-- Decode the payload of a `\u` escape (the input starts right after the
`\u`): four hex digits, except that a high-surrogate value continues into a
second `\uXXXX` low surrogate, as in `json.load`.  Returns the decoded
character and the number of characters consumed.  (A lone surrogate escape
is rejected: a Lean `Char` carries only Unicode scalar values, and the
writer never emits one.) -/
def parseU : List Char → Option (Char × Nat)
  | h1 :: h2 :: h3 :: h4 :: rr =>
    (hex4Val h1 h2 h3 h4).bind (fun n =>
      if 55296 ≤ n ∧ n ≤ 56319 then surrogatePair n rr
      else if 56320 ≤ n ∧ n ≤ 57343 then none
      else some (Char.ofNat n, 4))
  | _ => none

/-- Consume the body of a string literal up to the closing quote, decoding
every escape `json.load` accepts: the single-character escapes (via
`unescChar`) and the `\uXXXX` forms including surrogate pairs (via
`parseU`). -/
def parseStrBody : List Char → Option (List Char × List Char)
  | [] => none
  | c :: r =>
    if c.toNat = 34 then some ([], r)
    else if c.toNat = 92 then
      match r with
      | [] => none
      | e :: r' =>
        if e = 'u' then
          match parseU r' with
          | some (ch, k) => (parseStrBody (r'.drop k)).map (fun p => (ch :: p.1, p.2))
          | none => none
        else
          match unescChar e with
          | some d => (parseStrBody r').map (fun p => (d :: p.1, p.2))
          | none => none
    else (parseStrBody r).map (fun p => (c :: p.1, p.2))
termination_by s => s.length
decreasing_by
· simp only [List.length_cons, List.length_drop]
  omega
· simp only [List.length_cons]
  omega
· simp only [List.length_cons]
  omega

/-- Parse a JSON string literal. -/
def parseStrLit (s : List Char) : Option (String × List Char) :=
  match skipWs s with
  | c :: r =>
    if c.toNat = 34 then (parseStrBody r).map (fun p => (String.mk p.1, p.2))
    else none
  | [] => none

/-- Parse a JSON string literal or `null`. -/
def parseStrOrNull (s : List Char) : Option (Option String × List Char) :=
  match skipWs s with
  | c :: r =>
    if c.toNat = 34 then (parseStrBody r).map (fun p => (some (String.mk p.1), p.2))
    else if c = 'n' then
      match r with
      | u :: l1 :: l2 :: r' =>
        if u = 'u' && l1 = 'l' && l2 = 'l' then some (none, r') else none
      | _ => none
    else none
  | [] => none

/-- A decimal digit character. -/
def isDigitCh (c : Char) : Bool := 48 ≤ c.toNat && c.toNat ≤ 57

/-- Split off the longest leading run of decimal digits. -/
def takeDigits : List Char → List Char × List Char
  | [] => ([], [])
  | c :: r =>
    if isDigitCh c then
      let p := takeDigits r
      (c :: p.1, p.2)
    else ([], c :: r)

/-- Numeric value of a digit list. -/
def decToNat (ds : List Char) : Nat :=
  ds.foldl (fun a c => 10 * a + (c.toNat - 48)) 0

/-- Parse a (non-negative) JSON integer. -/
def parseNat (s : List Char) : Option (Nat × List Char) :=
  let s' := skipWs s
  let p := takeDigits s'
  if p.1.isEmpty then none else some (decToNat p.1, p.2)

/-- Parse one `"key": ` prefix, checking the key. -/
def parseKey (k : String) (s : List Char) : Option (List Char) :=
  match parseStrLit s with
  | some (k', r) => if k' = k then parseChar ':' r else none
  | none => none

/-- Parse `"key": <string>` and return the value. -/
def parseStrField (k : String) (s : List Char) : Option (String × List Char) :=
  match parseKey k s with
  | none => none
  | some r => parseStrLit r

/-- Parse `, "key": <string>` and return the value. -/
def parseStrFieldC (k : String) (s : List Char) : Option (String × List Char) :=
  match parseChar ',' s with
  | none => none
  | some r => parseStrField k r

/-- Parse `, "key": <string or null>` and return the value. -/
def parseOptFieldC (k : String) (s : List Char) : Option (Option String × List Char) :=
  match parseChar ',' s with
  | none => none
  | some r =>
    match parseKey k r with
    | none => none
    | some r' => parseStrOrNull r'

/-- Parse one degree object, with the keys in the insertion order
`save_blockchain` writes them. -/
def parseDegree (s : List Char) : Option (Degree × List Char) :=
  match parseChar lbrace s with
  | none => none
  | some r0 =>
  match parseStrField kDegreeId r0 with
  | none => none
  | some (vId, r1) =>
  match parseStrFieldC kStudentName r1 with
  | none => none
  | some (vName, r2) =>
  match parseStrFieldC kDegreeTitle r2 with
  | none => none
  | some (vTitle, r3) =>
  match parseStrFieldC kInstitution r3 with
  | none => none
  | some (vInst, r4) =>
  match parseStrFieldC kIssueDate r4 with
  | none => none
  | some (vDate, r5) =>
  match parseStrFieldC kDocumentHash r5 with
  | none => none
  | some (vDoc, r6) =>
  match parseStrFieldC kStatus r6 with
  | none => none
  | some (vStatus, r7) =>
  match parseOptFieldC kVerifiedBy r7 with
  | none => none
  | some (vVBy, r8) =>
  match parseOptFieldC kVerificationDate r8 with
  | none => none
  | some (vVDate, r9) =>
  match parseChar rbrace r9 with
  | none => none
  | some r10 =>
    some ({ degree_id := vId, student_name := vName, degree_title := vTitle,
            institution := vInst, issue_date := vDate, document_hash := vDoc,
            status := vStatus, verified_by := vVBy, verification_date := vVDate }, r10)

/-- Parse the items of a non-empty degree array, up to and including the
closing bracket. -/
def parseDegreeList (fuel : Nat) (s : List Char) : Option (List Degree × List Char) :=
  match fuel with
  | 0 => none
  | fuel + 1 =>
    match parseDegree s with
    | none => none
    | some (d, r) =>
      match skipWs r with
      | c :: r' =>
        if c = ']' then some ([d], r')
        else if c = ',' then
          match parseDegreeList fuel r' with
          | some (ds, r'') => some (d :: ds, r'')
          | none => none
        else none
      | [] => none

/-- Parse a JSON array of degree objects. -/
def parseDegrees (s : List Char) : Option (List Degree × List Char) :=
  match parseChar '[' s with
  | none => none
  | some r =>
    match skipWs r with
    | c :: r' => if c = ']' then some ([], r') else parseDegreeList (r.length + 1) r
    | [] => none

/-- Parse one block object, with the keys in the insertion order
`save_blockchain` writes them. -/
def parseBlock (s : List Char) : Option (Block × List Char) :=
  match parseChar lbrace s with
  | none => none
  | some r0 =>
  match parseKey kIndex r0 with
  | none => none
  | some r1 =>
  match parseNat r1 with
  | none => none
  | some (vIndex, r2) =>
  match parseStrFieldC kTimestamp r2 with
  | none => none
  | some (vTs, r3) =>
  match parseChar ',' r3 with
  | none => none
  | some r4 =>
  match parseKey kDegrees r4 with
  | none => none
  | some r5 =>
  match parseDegrees r5 with
  | none => none
  | some (vDegrees, r6) =>
  match parseStrFieldC kPreviousHash r6 with
  | none => none
  | some (vPrev, r7) =>
  match parseStrFieldC kHash r7 with
  | none => none
  | some (vHash, r8) =>
  match parseChar rbrace r8 with
  | none => none
  | some r9 =>
    some ({ index := vIndex, timestamp := vTs, degrees := vDegrees,
            previous_hash := vPrev, hash := vHash }, r9)

/-- Parse the items of a non-empty block array, up to and including the
closing bracket. -/
def parseBlockList (fuel : Nat) (s : List Char) : Option (List Block × List Char) :=
  match fuel with
  | 0 => none
  | fuel + 1 =>
    match parseBlock s with
    | none => none
    | some (b, r) =>
      match skipWs r with
      | c :: r' =>
        if c = ']' then some ([b], r')
        else if c = ',' then
          match parseBlockList fuel r' with
          | some (bs, r'') => some (b :: bs, r'')
          | none => none
        else none
      | [] => none

/-- Parse a JSON array of block objects. -/
def parseBlocks (s : List Char) : Option (List Block × List Char) :=
  match parseChar '[' s with
  | none => none
  | some r =>
    match skipWs r with
    | c :: r' => if c = ']' then some ([], r') else parseBlockList (r.length + 1) r
    | [] => none

/-- `Blockchain.load_blockchain` (src/text.py 89-99): read and `json.load`
the persisted file; a missing file leaves the chain empty, and any failure
(including trailing garbage) is swallowed and leaves the chain empty. -/
def load_blockchain (file : Option (List Char)) : List Block :=
  match file with
  | none => []
  | some content =>
    match parseBlocks content with
    | some (chain, rest) => if (skipWs rest).isEmpty then chain else []
    | none => []

def genesisPrevHash : String := "0"

/-- `Blockchain.__init__` (src/text.py 22-28): load the persisted chain, and
seal a genesis block with `previous_hash="0"` if the chain is empty.  `now`
stands for `str(datetime.now())` at genesis time. -/
def blockchain_init (file : Option (List Char)) (now : String) : State :=
  let loaded : State := { chain := load_blockchain file, pending_degrees := [] }
  if loaded.chain.isEmpty then (create_block loaded now genesisPrevHash).2 else loaded

/-! ### Further definitions used by the statements -/

/-- The empty string (the placeholder bound to the `hash` key when a block is
hashed). -/
def strEmpty : String := ""

/-- Replace the `hash` field of a block. -/
def withHash (b : Block) (h : String) : Block := { b with hash := h }

/-- Modelled from the spec: the encoding its hash-reproducibility sentence
describes — the block's canonical byte representation "consisting of all
fields except the hash field itself, serialized with deterministic (sorted)
field ordering".  This is not what `calculate_hash` feeds the digest (the
code keeps the `hash` key, bound to the empty string); the two encodings are
compared below. -/
def blockFieldsNoHash (b : Block) : List (List Char) :=
  [kv kDegrees (dumpArr none (b.degrees.map dumpDegreeSorted)),
   kv kIndex (natToDec b.index),
   kv kPreviousHash (jsonStr b.previous_hash),
   kv kTimestamp (jsonStr b.timestamp)]

/-- Modelled from the spec: compact sorted JSON rendering of a block with the
`hash` key omitted. -/
def dumpBlockNoHash (b : Block) : List Char := dumpObj none (blockFieldsNoHash b)

/-- The block produced by mutating the matched record of a block in place,
as `verify_degree` does. -/
def verifiedBlock (b : Block) (dp dq : List Degree) (d : Degree)
    (status vname now : String) : Block :=
  { b with degrees := dp ++ applyVerification d status vname now :: dq }

/-- Number of records in the sealed chain carrying a given `degree_id`. -/
def countById (chain : List Block) (id : String) : Nat :=
  ((chain.map Block.degrees).flatten).countP (fun d => d.degree_id == id)

/-- The operations the handlers perform on the chain state. -/
inductive Op where
  | submit (d : Degree)
  | seal (t : String)
  | verify (id status verifier now : String)

/-- The `previous_hash` argument the upload handler passes to `create_block`:
`get_latest_block()['hash']` (src/text.py 241).  The chain is never empty in
a reachable state, so the fallback is never taken there. -/
def latestHash (s : State) : String :=
  match get_latest_block s with
  | some b => b.hash
  | none => genesisPrevHash

/-- One chain operation. -/
def step (s : State) : Op → State
  | Op.submit d => (submit s d).2
  | Op.seal t => (create_block s t (latestHash s)).2
  | Op.verify id status verifier now => (verify_degree s id status verifier now).2

/-- Run a sequence of chain operations. -/
def run (s : State) : List Op → State
  | [] => s
  | op :: ops => run (step s op) ops

/-- The immutable header of a block: everything except its records. -/
def hdr (b : Block) : Nat × String × String × String :=
  (b.index, b.timestamp, b.previous_hash, b.hash)

/-! ### Concrete sample data for the witnesses -/

def tG : String := "2024-01-01 09:00:00.000001"
def tS : String := "2024-01-02 09:00:00.000002"
def tU : String := "2024-01-03 09:00:00.000003"
def tV : String := "2024-01-04 09:00:00.000004"
def cApproved : String := "Approved"
def cHEC : String := "HEC"
def cNAB : String := "NAB"
def cMissing : String := "no-such-id"

/-- The state with an empty chain and empty pending buffer. -/
def emptyState : State := { chain := [], pending_degrees := [] }

/-- The genesis block sealed on first run. -/
def wGenesis : Block := (create_block emptyState tG genesisPrevHash).1

/-- The state right after genesis. -/
def wState0 : State := (create_block emptyState tG genesisPrevHash).2

/-- A sample uploaded degree record. -/
def wDeg : Degree :=
  degreeData "Alice" "BSc Computer Science" "X University" "2024-01-01" "abc123"

/-- The block sealing the sample upload. -/
def wSealed : Block := (create_block (add_degree wState0 wDeg) tS wGenesis.hash).1

/-- The state after uploading and sealing the sample record. -/
def wState1 : State := (create_block (add_degree wState0 wDeg) tS wGenesis.hash).2

/-- The state after uploading and sealing the identical record a second
time. -/
def wState2 : State := (create_block (add_degree wState1 wDeg) tU wSealed.hash).2

/-- A sample record with an empty required field (no student name). -/
def wDegBad : Degree :=
  degreeData "" "BSc Computer Science" "X University" "2024-01-01" "abc123"

/-! ## Behaviour of the `verify_degree` scan -/

theorem verifyDegrees_none (ds : List Degree) (id status vname now : String)
    (h : ∀ g ∈ ds, g.degree_id ≠ id) :
    verifyDegrees ds id status vname now = none := by
  induction ds with
  | nil => rfl
  | cons d rest ih =>
    simp only [verifyDegrees]
    rw [if_neg (h d (List.mem_cons_self d rest)),
      ih (fun g hg => h g (List.mem_cons_of_mem d hg))]
    rfl

theorem verifyChain_none (c : List Block) (id status vname now : String)
    (h : ∀ b ∈ c, ∀ g ∈ b.degrees, g.degree_id ≠ id) :
    verifyChain c id status vname now = none := by
  induction c with
  | nil => rfl
  | cons b rest ih =>
    simp only [verifyChain]
    rw [verifyDegrees_none b.degrees id status vname now (h b (List.mem_cons_self b rest)),
      ih (fun x hx => h x (List.mem_cons_of_mem b hx))]
    rfl

theorem verifyDegrees_found (dp : List Degree) (d : Degree) (dq : List Degree)
    (id status vname now : String)
    (hdp : ∀ g ∈ dp, g.degree_id ≠ id) (hd : d.degree_id = id) :
    verifyDegrees (dp ++ d :: dq) id status vname now =
      some (dp ++ applyVerification d status vname now :: dq) := by
  induction dp with
  | nil => simp only [List.nil_append, verifyDegrees, if_pos hd]
  | cons g gs ih =>
    simp only [List.cons_append, verifyDegrees]
    rw [if_neg (hdp g (List.mem_cons_self g gs))]
    simp only [List.append_eq]
    rw [ih (fun x hx => hdp x (List.mem_cons_of_mem g hx))]
    rfl

theorem verifyChain_found (P : List Block) (b : Block) (Q : List Block)
    (dp : List Degree) (d : Degree) (dq : List Degree)
    (id status vname now : String)
    (hP : ∀ blk ∈ P, ∀ g ∈ blk.degrees, g.degree_id ≠ id)
    (hb : b.degrees = dp ++ d :: dq)
    (hdp : ∀ g ∈ dp, g.degree_id ≠ id) (hd : d.degree_id = id) :
    verifyChain (P ++ b :: Q) id status vname now =
      some (P ++ verifiedBlock b dp dq d status vname now :: Q) := by
  induction P with
  | nil =>
    simp only [List.nil_append, verifyChain]
    rw [hb, verifyDegrees_found dp d dq id status vname now hdp hd]
    rfl
  | cons blk rest ih =>
    simp only [List.cons_append, verifyChain]
    rw [verifyDegrees_none blk.degrees id status vname now
        (hP blk (List.mem_cons_self blk rest))]
    simp only [List.append_eq]
    rw [ih (fun x hx => hP x (List.mem_cons_of_mem blk hx))]
    rfl

/-! ## Error paths of `verify_degree` (claims C3 and C4) -/

/-- C3: for every chain state containing a record with the given id, calling
`verify_degree` with an authority code outside the verifier registry returns
failure and leaves the whole state — the matched record included —
unchanged. -/
theorem claim_C3_unknown_verifier_rejected
    (s : State) (id status verifier now : String)
    (hpresent : ∃ b, b ∈ s.chain ∧ ∃ g, g ∈ b.degrees ∧ g.degree_id = id)
    (hv : verifiers verifier = none) :
    verify_degree s id status verifier now = (false, s) := by
  simp only [verify_degree, hv]

/-- C3 witness: the sample chain contains the sample record, `NAB` is not a
registered verifier, and verification fails without mutating the state. -/
theorem claim_C3_unknown_verifier_rejected_witness :
    verify_degree wState1 wDeg.degree_id cApproved cNAB tV = (false, wState1) :=
  claim_C3_unknown_verifier_rejected wState1 wDeg.degree_id cApproved cNAB tV
    ⟨wSealed,
      by
        rw [show wState1.chain = [wGenesis, wSealed] from rfl]
        exact List.mem_cons_of_mem wGenesis (List.mem_singleton.mpr rfl),
      wDeg,
      by
        rw [show wSealed.degrees = [wDeg] from rfl]
        exact List.mem_singleton.mpr rfl,
      rfl⟩ (by decide)

/-- C4: for every chain state and an id matching no record in any block,
`verify_degree` with a registered authority code returns failure and leaves
the in-memory state byte-for-byte unchanged. -/
theorem claim_C4_not_found_no_change
    (s : State) (id status verifier now vname : String)
    (hv : verifiers verifier = some vname)
    (habsent : ∀ b ∈ s.chain, ∀ g ∈ b.degrees, g.degree_id ≠ id) :
    verify_degree s id status verifier now = (false, s) := by
  simp only [verify_degree, hv,
    verifyChain_none s.chain id status vname now habsent]

/-- C4 witness: on the post-genesis chain, verifying an unknown id with the
registered code `HEC` fails and keeps the state unchanged. -/
theorem claim_C4_not_found_no_change_witness :
    verify_degree wState0 cMissing cApproved cHEC tV = (false, wState0) :=
  claim_C4_not_found_no_change wState0 cMissing cApproved cHEC tV hecName
    (by decide) (by decide)

/-! ## Genesis (claim C6) -/

/-- C6: when no persisted chain exists (or loading yields an empty chain),
initialization produces a chain with exactly one block, of index 1, with the
sentinel `previous_hash` `"0"` and no records, and an empty pending buffer. -/
theorem claim_C6_genesis_block (file : Option (List Char)) (now : String)
    (h : load_blockchain file = []) :
    blockchain_init file now =
      { chain := [{ index := 1, timestamp := now, degrees := [],
                    previous_hash := genesisPrevHash,
                    hash := calculate_hash
                      { index := 1, timestamp := now, degrees := [],
                        previous_hash := genesisPrevHash, hash := strEmpty } }],
        pending_degrees := [] } := by
  simp only [blockchain_init, h, create_block, List.isEmpty_nil, if_pos]
  rfl

/-- C6 witness: initializing with no persisted file yields exactly the
genesis state. -/
theorem claim_C6_genesis_block_witness :
    blockchain_init none tG =
      { chain := [{ index := 1, timestamp := tG, degrees := [],
                    previous_hash := genesisPrevHash,
                    hash := calculate_hash
                      { index := 1, timestamp := tG, degrees := [],
                        previous_hash := genesisPrevHash, hash := strEmpty } }],
        pending_degrees := [] } :=
  claim_C6_genesis_block none tG rfl

/-! ## Submission (claim C7) -/

/-- C7: a record with an empty required field is rejected and not buffered
(and the state, the sealed chain in particular, is unchanged); a record with
all required fields non-empty is appended to the pending buffer, again
leaving the sealed chain untouched. -/
theorem claim_C7_submit_validation (s : State) (d : Degree) :
    (has_empty_required d = true → submit s d = (false, s)) ∧
    (has_empty_required d = false →
      submit s d = (true, { chain := s.chain,
                            pending_degrees := s.pending_degrees ++ [d] })) := by
  constructor <;> intro h <;> simp [submit, h, add_degree]

/-- C7 witness: the sample record with an empty student name is rejected
with no state change, and the well-formed sample record is appended to the
pending buffer with the chain untouched. -/
theorem claim_C7_submit_validation_witness :
    submit wState0 wDegBad = (false, wState0) ∧
    submit wState0 wDeg = (true, { chain := wState0.chain,
                                   pending_degrees := wState0.pending_degrees ++ [wDeg] }) :=
  ⟨(claim_C7_submit_validation wState0 wDegBad).1 (by decide),
   (claim_C7_submit_validation wState0 wDeg).2 (by decide)⟩

/-! ## Injectivity of the digest model and hash-encoding facts -/

theorem hexN_length (k : Nat) : ∀ n, (hexN k n).length = k := by
  induction k with
  | zero => intro n; rfl
  | succ k ih => intro n; simp [hexN, ih]

theorem hexDigit_inj : ∀ a < 16, ∀ b < 16, hexDigit a = hexDigit b → a = b := by decide

theorem hexN_inj (k : Nat) : ∀ n m, n < 16 ^ k → m < 16 ^ k → hexN k n = hexN k m → n = m := by
  induction k with
  | zero => intro n m hn hm _; omega
  | succ k ih =>
    intro n m hn hm h
    simp only [hexN] at h
    have h2 := List.append_inj h (by simp [hexN_length])
    have hd : n / 16 < 16 ^ k := by
      rw [pow_succ] at hn
      omega
    have hd2 : m / 16 < 16 ^ k := by
      rw [pow_succ] at hm
      omega
    have e1 : n / 16 = m / 16 := ih (n / 16) (m / 16) hd hd2 h2.1
    have e2 : n % 16 = m % 16 := by
      apply hexDigit_inj (n % 16) (Nat.mod_lt n (by omega)) (m % 16) (Nat.mod_lt m (by omega))
      simpa using h2.2
    omega

theorem char_toNat_lt (c : Char) : c.toNat < 16 ^ 6 := by
  have h := c.valid
  rcases h with h | h
  · have h2 : c.val.toNat < 55296 := h
    simp only [Char.toNat]
    omega
  · have h2 : c.val.toNat < 1114112 := h.2
    simp only [Char.toNat]
    omega

theorem char_toNat_inj (a b : Char) (h : a.toNat = b.toNat) : a = b := by
  apply Char.ext
  apply UInt32.ext
  simpa [Char.toNat, UInt32.toNat] using h

theorem flatten_hex6_inj : ∀ l1 l2 : List Char,
    (l1.map (fun c => hexN 6 c.toNat)).flatten = (l2.map (fun c => hexN 6 c.toNat)).flatten →
    l1 = l2 := by
  intro l1
  induction l1 with
  | nil =>
    intro l2 h
    cases l2 with
    | nil => rfl
    | cons d ds =>
      have := congrArg List.length h
      simp [hexN_length] at this
      omega
  | cons c cs ih =>
    intro l2 h
    cases l2 with
    | nil =>
      have := congrArg List.length h
      simp [hexN_length] at this
    | cons d ds =>
      simp only [List.map_cons, List.flatten_cons] at h
      have h2 := List.append_inj h (by simp [hexN_length])
      have e1 : c = d :=
        char_toNat_inj c d (hexN_inj 6 c.toNat d.toNat (char_toNat_lt c) (char_toNat_lt d) h2.1)
      rw [e1, ih ds h2.2]

theorem sha256hex_inj (a b : List Char) (h : sha256hex a = sha256hex b) : a = b := by
  apply flatten_hex6_inj
  have h2 := congrArg String.data h
  simpa [sha256hex] using h2

/-- The sorted-keys encoding that keeps the `hash` key is never the same
byte string as the spec-worded encoding that omits it. -/
theorem dumpSorted_ne_noHash (b : Block) : dumpBlockSorted b ≠ dumpBlockNoHash b := by
  intro h
  have h1 : (jsonStr kHash).length = 6 := by decide
  have hlen := congrArg List.length h
  simp only [dumpBlockSorted, dumpBlockNoHash, dumpObj, blockFieldsSorted,
    blockFieldsNoHash, joinWith, kv, modeParts, List.append_assoc, List.cons_append,
    List.nil_append, List.length_append, List.length_cons, List.length_nil,
    List.length_singleton, h1] at hlen
  omega

/-! ## Sealing and the hash-encoding convention (claims C2 and C10) -/

/-- C2 counterexample: for the concrete block sealed by the sample upload,
the claim as stated fails — the block's stored `hash` is not the digest of
the canonical encoding that omits the `hash` field (the code hashes an
encoding that keeps the `hash` key, bound to the empty string). -/
theorem claim_C2_counterexample :
    ¬ (wSealed.previous_hash = wGenesis.hash ∧
       wSealed.hash = sha256hex (dumpBlockNoHash wSealed)) := by
  intro h
  have h2 : sha256hex (dumpBlockSorted (withHash wSealed strEmpty))
      = sha256hex (dumpBlockNoHash (withHash wSealed strEmpty)) := h.2
  exact dumpSorted_ne_noHash (withHash wSealed strEmpty) (sha256hex_inj _ _ h2)

/-- C2 (amended): for every valid submission, `submit` followed by `seal`
(the upload handler's `add_degree`-then-`create_block` flow) yields a new
block appended to the chain whose `previous_hash` equals the hash of the
block that was latest before the seal, and whose own stored `hash` equals
the digest recomputed over the block's canonical byte representation in
which the `hash` field is bound to the empty string (the hash key is present
with a placeholder, not omitted), serialized with sorted field ordering. -/
theorem claim_C2_submit_seal_links
    (s : State) (d : Degree) (t : String) (lb : Block)
    (hlb : get_latest_block s = some lb) :
    upload_degree s d t = some (create_block (add_degree s d) t lb.hash).2 ∧
    (create_block (add_degree s d) t lb.hash).2.chain
      = s.chain ++ [(create_block (add_degree s d) t lb.hash).1] ∧
    ((create_block (add_degree s d) t lb.hash).1).previous_hash = lb.hash ∧
    ((create_block (add_degree s d) t lb.hash).1).hash
      = sha256hex (dumpBlockSorted (withHash (create_block (add_degree s d) t lb.hash).1 strEmpty)) := by
  refine ⟨?_, rfl, rfl, rfl⟩
  simp only [upload_degree, hlb]

/-- C2 witness: the sample upload on the post-genesis state links to the
genesis hash and stores the digest of its own empty-hash encoding. -/
theorem claim_C2_submit_seal_links_witness :
    upload_degree wState0 wDeg tS = some (create_block (add_degree wState0 wDeg) tS wGenesis.hash).2 ∧
    (create_block (add_degree wState0 wDeg) tS wGenesis.hash).2.chain
      = wState0.chain ++ [(create_block (add_degree wState0 wDeg) tS wGenesis.hash).1] ∧
    ((create_block (add_degree wState0 wDeg) tS wGenesis.hash).1).previous_hash = wGenesis.hash ∧
    ((create_block (add_degree wState0 wDeg) tS wGenesis.hash).1).hash
      = sha256hex (dumpBlockSorted (withHash (create_block (add_degree wState0 wDeg) tS wGenesis.hash).1 strEmpty)) :=
  claim_C2_submit_seal_links wState0 wDeg tS wGenesis rfl

/-- C10: for every block produced by `create_block`, the stored `hash`
equals the digest of the sorted-keys JSON serialization of the block mapping
in which the `hash` field is present and bound to the empty string; and that
encoding is distinct from the one omitting the `hash` key, so independent
re-verification must reproduce exactly this convention. -/
theorem claim_C10_hash_placeholder_convention (s : State) (t ph : String) :
    ((create_block s t ph).1).hash
      = sha256hex (dumpBlockSorted (withHash (create_block s t ph).1 strEmpty)) ∧
    dumpBlockSorted (withHash (create_block s t ph).1 strEmpty)
      ≠ dumpBlockNoHash (withHash (create_block s t ph).1 strEmpty) := by
  exact ⟨rfl, dumpSorted_ne_noHash (withHash (create_block s t ph).1 strEmpty)⟩

/-! ## Identifier derivation and resubmission (claim C8) -/

theorem countById_append (c1 c2 : List Block) (id : String) :
    countById (c1 ++ c2) id = countById c1 id + countById c2 id := by
  simp [countById, List.map_append, List.flatten_append, List.countP_append]

set_option maxRecDepth 100000 in
/-- C8 counterexample: submitting and sealing the identical sample record a
second time does add a duplicate entry — afterwards the ledger holds two
records with the derived id, refuting "at most one". -/
theorem claim_C8_counterexample :
    upload_degree wState1 wDeg tU = some wState2 ∧
    ¬ (countById wState2.chain wDeg.degree_id ≤ 1) :=
  ⟨rfl, by decide⟩

/-- C8 (amended): two submissions with identical
`(student_name, degree_title, institution, issue_date, document_hash)`
derive the same id (the id is a function of exactly those five fields), but
submitting and sealing the second — with an empty pending buffer, as in the
upload flow — appends one more record with that id to the ledger: the count
of ledger records carrying the id grows by exactly one, so a resubmission
duplicates rather than overwrites (only the auxiliary relational store
overwrites). -/
theorem claim_C8_resubmission_duplicates
    (s : State) (lb : Block) (t sn dt inst idate dh : String)
    (hlb : get_latest_block s = some lb)
    (hpending : s.pending_degrees = []) :
    (degreeData sn dt inst idate dh).degree_id = degreeIdOf sn dt inst idate dh ∧
    upload_degree s (degreeData sn dt inst idate dh) t
      = some (create_block (add_degree s (degreeData sn dt inst idate dh)) t lb.hash).2 ∧
    countById ((create_block (add_degree s (degreeData sn dt inst idate dh)) t lb.hash).2).chain
        (degreeIdOf sn dt inst idate dh)
      = countById s.chain (degreeIdOf sn dt inst idate dh) + 1 := by
  refine ⟨rfl, by simp only [upload_degree, hlb], ?_⟩
  simp only [create_block, add_degree, hpending]
  rw [countById_append]
  simp [countById, degreeData, List.countP_cons]

/-- C8 amended witness: resubmitting the sample record on the sample chain
raises the count of records with its id from 1 to 2. -/
theorem claim_C8_resubmission_duplicates_witness :
    (degreeData "Alice" "BSc Computer Science" "X University" "2024-01-01" "abc123").degree_id
      = degreeIdOf "Alice" "BSc Computer Science" "X University" "2024-01-01" "abc123" ∧
    upload_degree wState1 (degreeData "Alice" "BSc Computer Science" "X University" "2024-01-01" "abc123") tU
      = some (create_block (add_degree wState1 (degreeData "Alice" "BSc Computer Science" "X University" "2024-01-01" "abc123")) tU wSealed.hash).2 ∧
    countById ((create_block (add_degree wState1 (degreeData "Alice" "BSc Computer Science" "X University" "2024-01-01" "abc123")) tU wSealed.hash).2).chain
        (degreeIdOf "Alice" "BSc Computer Science" "X University" "2024-01-01" "abc123")
      = countById wState1.chain (degreeIdOf "Alice" "BSc Computer Science" "X University" "2024-01-01" "abc123") + 1 :=
  claim_C8_resubmission_duplicates wState1 wSealed tU
    "Alice" "BSc Computer Science" "X University" "2024-01-01" "abc123" rfl rfl

/-! ## Chain growth and ordering (claim C9) -/

theorem verifyChain_map_hdr (c : List Block) (id status vname now : String) :
    ∀ c', verifyChain c id status vname now = some c' → c'.map hdr = c.map hdr := by
  induction c with
  | nil => intro c' h; simp [verifyChain] at h
  | cons b rest ih =>
    intro c' h
    simp only [verifyChain] at h
    cases hv : verifyDegrees b.degrees id status vname now with
    | some ds' =>
      rw [hv] at h
      simp only [Option.some.injEq] at h
      rw [← h]
      simp [hdr]
    | none =>
      rw [hv] at h
      cases hrec : verifyChain rest id status vname now with
      | none => rw [hrec] at h; simp at h
      | some rest' =>
        rw [hrec] at h
        simp only [Option.map_some', Option.some.injEq] at h
        rw [← h]
        simp [ih rest' hrec]

theorem step_submit_chain (s : State) (d : Degree) :
    (step s (Op.submit d)).chain = s.chain := by
  cases h : has_empty_required d <;> simp [step, submit, h, add_degree]

theorem step_seal (s : State) (t : String) :
    step s (Op.seal t)
      = { chain := s.chain ++ [(create_block s t (latestHash s)).1],
          pending_degrees := [] } := rfl

theorem step_verify_map_hdr (s : State) (id status verifier now : String) :
    ((step s (Op.verify id status verifier now)).chain).map hdr = s.chain.map hdr := by
  cases hv : verifiers verifier with
  | none => simp [step, verify_degree, hv]
  | some vn =>
    cases hc : verifyChain s.chain id status vn now with
    | none => simp [step, verify_degree, hv, hc]
    | some c' =>
      simp only [step, verify_degree, hv, hc]
      exact verifyChain_map_hdr s.chain id status vn now c' hc

theorem step_length_mono (s : State) (op : Op) :
    s.chain.length ≤ (step s op).chain.length := by
  obtain d | t | ⟨id, status, verifier, now⟩ := op
  · rw [step_submit_chain]
  · rw [step_seal]
    simp
  · have h := congrArg List.length (step_verify_map_hdr s id status verifier now)
    simp only [List.length_map] at h
    omega

theorem map_index_eq_map_hdr_fst (c : List Block) :
    c.map Block.index = (c.map hdr).map Prod.fst := by
  rw [List.map_map]
  rfl

theorem step_indexed (s : State) (op : Op)
    (hs : s.chain.map Block.index = List.range' 1 s.chain.length) :
    (step s op).chain.map Block.index = List.range' 1 (step s op).chain.length := by
  obtain d | t | ⟨id, status, verifier, now⟩ := op
  · rw [step_submit_chain]
    exact hs
  · rw [step_seal]
    simp only [List.map_append, List.length_append, List.map_cons, List.map_nil,
      List.length_cons, List.length_nil]
    rw [hs, show ((create_block s t (latestHash s)).1).index = s.chain.length + 1 from rfl,
      List.range'_concat]
    simp [Nat.add_comm]
  · have hh := step_verify_map_hdr s id status verifier now
    have hlen : (step s (Op.verify id status verifier now)).chain.length = s.chain.length := by
      have h2 := congrArg List.length hh
      simpa using h2
    rw [map_index_eq_map_hdr_fst, hh, ← map_index_eq_map_hdr_fst, hlen, hs]

theorem run_indexed (ops : List Op) : ∀ s : State,
    s.chain.map Block.index = List.range' 1 s.chain.length →
    (run s ops).chain.map Block.index = List.range' 1 (run s ops).chain.length := by
  induction ops with
  | nil => intro s hs; exact hs
  | cons op rest ih => intro s hs; exact ih (step s op) (step_indexed s op hs)

/-- C9: along every operation sequence from genesis, block indices stay
contiguous and 1-based (the block at position k has index k+1); no operation
shortens the chain; `submit` leaves the sealed chain untouched; each `seal`
appends exactly one block and clears the pending buffer; and `verify`
preserves every block's position and header (index, timestamp,
previous_hash and stored hash), so blocks are never removed or permuted. -/
theorem claim_C9_chain_never_shrinks_or_reorders :
    (∀ t ops, (run (blockchain_init none t) ops).chain.map Block.index
        = List.range' 1 (run (blockchain_init none t) ops).chain.length) ∧
    (∀ s op, s.chain.length ≤ (step s op).chain.length) ∧
    (∀ s d, (step s (Op.submit d)).chain = s.chain) ∧
    (∀ s t, step s (Op.seal t)
        = { chain := s.chain ++ [(create_block s t (latestHash s)).1],
            pending_degrees := [] }) ∧
    (∀ s id status verifier now,
        ((step s (Op.verify id status verifier now)).chain).map hdr = s.chain.map hdr) :=
  ⟨fun t ops => run_indexed ops (blockchain_init none t) rfl,
   step_length_mono, step_submit_chain, step_seal, step_verify_map_hdr⟩

/-! ## Prefix disjointness of JSON string literals over safe strings -/

theorem escChar_safe (c : Char) (h : jsonSafeChar c = true) : escChar c = [c] := by
  simp only [jsonSafeChar, Bool.and_eq_true, decide_eq_true_eq, Bool.not_eq_true',
    decide_eq_false_iff_not] at h
  obtain ⟨⟨⟨h1, h2⟩, h3⟩, h4⟩ := h
  simp only [escChar]
  rw [if_neg h3, if_neg h4, if_neg (by omega), if_neg (by omega), if_neg (by omega),
    if_neg (by omega), if_neg (by omega), if_neg (by omega), if_pos h2]

theorem flatten_esc_safe (l : List Char) (h : l.all jsonSafeChar = true) :
    (l.map escChar).flatten = l := by
  induction l with
  | nil => rfl
  | cons c cs ih =>
    simp only [List.all_cons, Bool.and_eq_true] at h
    simp [escChar_safe c h.1, ih h.2]

theorem jsonStr_safe (s : String) (h : jsonSafeS s = true) :
    jsonStr s = quoteChar :: s.toList ++ [quoteChar] := by
  rw [jsonStr, flatten_esc_safe s.toList h]

theorem safe_no_quote (l : List Char) (h : l.all jsonSafeChar = true) :
    ∀ c ∈ l, c ≠ quoteChar := by
  intro c hc heq
  have hcs : jsonSafeChar c = true := by
    rw [List.all_eq_true] at h
    exact h c hc
  rw [heq] at hcs
  simp [jsonSafeChar, quoteChar] at hcs

theorem quotefree_split (a : List Char) : ∀ b x y : List Char,
    (∀ c ∈ a, c ≠ quoteChar) → (∀ c ∈ b, c ≠ quoteChar) →
    a ++ quoteChar :: x = b ++ quoteChar :: y → a = b ∧ x = y := by
  induction a with
  | nil =>
    intro b x y _ hb h
    cases b with
    | nil => simpa using h
    | cons c cs =>
      simp only [List.nil_append, List.cons_append, List.cons.injEq] at h
      exact absurd h.1.symm (hb c (List.mem_cons_self c cs))
  | cons c cs ih =>
    intro b x y ha hb h
    cases b with
    | nil =>
      simp only [List.cons_append, List.nil_append, List.cons.injEq] at h
      exact absurd h.1 (ha c (List.mem_cons_self c cs))
    | cons e es =>
      simp only [List.cons_append, List.cons.injEq] at h
      have hrec := ih es x y (fun g hg => ha g (List.mem_cons_of_mem c hg))
        (fun g hg => hb g (List.mem_cons_of_mem e hg)) h.2
      exact ⟨by rw [h.1, hrec.1], hrec.2⟩

theorem string_of_toList {a b : String} (h : a.toList = b.toList) : a = b := by
  cases a
  cases b
  simp only [String.toList] at h
  rw [h]

theorem jsonStr_chunk (a b : String) (x y : List Char)
    (ha : jsonSafeS a = true) (hb : jsonSafeS b = true)
    (h : jsonStr a ++ x = jsonStr b ++ y) : a = b ∧ x = y := by
  rw [jsonStr_safe a ha, jsonStr_safe b hb] at h
  simp only [List.cons_append, List.append_assoc, List.singleton_append,
    List.cons.injEq, true_and] at h
  have hsplit := quotefree_split a.toList b.toList x y
    (safe_no_quote a.toList ha) (safe_no_quote b.toList hb) h
  exact ⟨string_of_toList hsplit.1, hsplit.2⟩

theorem jsonOptStr_chunk (a b : Option String) (x y : List Char)
    (ha : jsonSafeO a = true) (hb : jsonSafeO b = true)
    (h : jsonOptStr a ++ x = jsonOptStr b ++ y) : a = b ∧ x = y := by
  cases a with
  | none =>
    cases b with
    | none =>
      simp only [jsonOptStr, List.cons_append, List.nil_append, List.cons.injEq,
        true_and] at h
      exact ⟨rfl, h⟩
    | some sb =>
      rw [show jsonOptStr none = 'n' :: ['u', 'l', 'l'] from rfl,
        show jsonOptStr (some sb) = jsonStr sb from rfl, jsonStr_safe sb hb] at h
      simp only [List.cons_append, List.cons.injEq] at h
      exact absurd h.1 (by decide)
  | some sa =>
    cases b with
    | none =>
      rw [show jsonOptStr none = 'n' :: ['u', 'l', 'l'] from rfl,
        show jsonOptStr (some sa) = jsonStr sa from rfl, jsonStr_safe sa ha] at h
      simp only [List.cons_append, List.cons.injEq] at h
      exact absurd h.1 (by decide)
    | some sb =>
      have hc := jsonStr_chunk sa sb x y ha hb h
      exact ⟨by rw [hc.1], hc.2⟩

/-! ## Staleness of the stored hash after an in-place verification (claim C1) -/

theorem joinWith_cons_of_ne (sep x : List Char) (L : List (List Char)) (h : L ≠ []) :
    joinWith sep (x :: L) = x ++ sep ++ joinWith sep L := by
  cases L with
  | nil => exact absurd rfl h
  | cons y ys => rfl

theorem joinWith_middle (sep : List Char) (f : Degree → List Char)
    (p r : List Degree) :
    ∃ P S : List Char, ∀ x : Degree,
      joinWith sep ((p ++ x :: r).map f) = P ++ (f x ++ S) := by
  induction p with
  | nil =>
    cases r with
    | nil => exact ⟨[], [], fun x => by simp [joinWith]⟩
    | cons y ys =>
      refine ⟨[], sep ++ joinWith sep ((y :: ys).map f), fun x => ?_⟩
      simp [joinWith, List.append_assoc]
  | cons q qs ih =>
    obtain ⟨P, S, hPS⟩ := ih
    refine ⟨f q ++ sep ++ P, S, fun x => ?_⟩
    have hne : ((qs ++ x :: r).map f) ≠ [] := by simp
    simp only [List.cons_append, List.map_cons]
    rw [joinWith_cons_of_ne sep (f q) _ hne, hPS x]
    simp [List.append_assoc]

theorem dumpArr_of_ne_nil (items : List (List Char)) (h : items ≠ []) :
    dumpArr none items = '[' :: joinWith (',' :: [' ']) items ++ [']'] := by
  cases items with
  | nil => exact absurd rfl h
  | cons x xs => simp [dumpArr, modeParts, List.isEmpty_cons]

/-- Mutating `status`, `verified_by` and `verification_date` with a fresh
verification date changes the record's sorted-keys serialization. -/
theorem dumpDegree_mutated_ne (d : Degree) (st vname now : String)
    (h1 : jsonSafeS d.status = true) (h2 : jsonSafeS st = true)
    (h3 : jsonSafeO d.verification_date = true) (h4 : jsonSafeS now = true)
    (hfresh : d.verification_date ≠ some now) :
    dumpDegreeSorted (applyVerification d st vname now) ≠ dumpDegreeSorted d := by
  intro h
  simp only [dumpDegreeSorted, dumpObj, degreeFieldsSorted, applyVerification, kv,
    modeParts, joinWith, List.append_assoc, List.cons_append, List.nil_append,
    List.cons.injEq, List.append_cancel_left_eq, true_and] at h
  have hc := jsonStr_chunk st d.status _ _ h2 h1 h
  have hrest := hc.2
  simp only [List.cons.injEq, List.append_cancel_left_eq, true_and] at hrest
  have ho := jsonOptStr_chunk (some now) d.verification_date _ _
    (by simpa [jsonSafeO] using h4) h3 hrest
  exact hfresh ho.1.symm

/-- Mutating a record inside a block with a fresh verification date changes
the block's hashed serialization (the block's own `hash` field being reset to
the empty placeholder on both sides). -/
theorem stale_block_dump_ne (b : Block) (dp dq : List Degree) (d : Degree)
    (st vname now : String)
    (h1 : jsonSafeS d.status = true) (h2 : jsonSafeS st = true)
    (h3 : jsonSafeO d.verification_date = true) (h4 : jsonSafeS now = true)
    (hb : b.degrees = dp ++ d :: dq)
    (hfresh : d.verification_date ≠ some now) :
    dumpBlockSorted (withHash (verifiedBlock b dp dq d st vname now) strEmpty)
      ≠ dumpBlockSorted (withHash b strEmpty) := by
  intro h
  simp only [dumpBlockSorted, dumpObj, blockFieldsSorted, withHash, verifiedBlock, kv,
    modeParts, joinWith, List.append_assoc, List.cons_append, List.nil_append,
    List.cons.injEq, List.append_cancel_left_eq, true_and] at h
  rw [hb] at h
  rw [dumpArr_of_ne_nil _ (by simp), dumpArr_of_ne_nil _ (by simp)] at h
  simp only [List.cons_append, List.append_assoc, List.cons.injEq, true_and] at h
  obtain ⟨P, S, hmid⟩ := joinWith_middle (',' :: [' ']) dumpDegreeSorted dp dq
  rw [hmid (applyVerification d st vname now), hmid d] at h
  simp only [List.append_assoc, List.append_cancel_left_eq] at h
  exact dumpDegree_mutated_ne d st vname now h1 h2 h3 h4 hfresh
    (List.append_cancel_right h)

/-- C1: when `verify_degree` succeeds — the code is registered, the matched
record sits at a definite position, and the stamped verification date is
fresh — the containing block keeps its previously stored `hash` (here
assumed consistent with the block's pre-verification contents, as it is for
a freshly sealed block), every other block (all subsequent `previous_hash`
fields included) is untouched, the matched record's `status`, `verified_by`
and `verification_date` are mutated in place, and recomputing the block's
hash from its current contents yields a value different from the stored
hash. -/
theorem claim_C1_verify_leaves_stored_hash_stale
    (s : State) (P Q : List Block) (b : Block) (dp dq : List Degree) (d : Degree)
    (id status verifier now vname : String)
    (hv : verifiers verifier = some vname)
    (hs : s.chain = P ++ b :: Q)
    (hb : b.degrees = dp ++ d :: dq)
    (hP : ∀ blk ∈ P, ∀ g ∈ blk.degrees, g.degree_id ≠ id)
    (hdp : ∀ g ∈ dp, g.degree_id ≠ id)
    (hd : d.degree_id = id)
    (hvalid : b.hash = calculate_hash (withHash b strEmpty))
    (hfresh : d.verification_date ≠ some now)
    (h1 : jsonSafeS d.status = true) (h2 : jsonSafeS status = true)
    (h3 : jsonSafeO d.verification_date = true) (h4 : jsonSafeS now = true) :
    verify_degree s id status verifier now
      = (true, { chain := P ++ verifiedBlock b dp dq d status vname now :: Q,
                 pending_degrees := s.pending_degrees }) ∧
    (verifiedBlock b dp dq d status vname now).hash = b.hash ∧
    calculate_hash (withHash (verifiedBlock b dp dq d status vname now) strEmpty)
      ≠ (verifiedBlock b dp dq d status vname now).hash := by
  refine ⟨?_, rfl, ?_⟩
  · simp only [verify_degree, hv, hs,
      verifyChain_found P b Q dp d dq id status vname now hP hb hdp hd]
  · rw [show (verifiedBlock b dp dq d status vname now).hash = b.hash from rfl, hvalid]
    simp only [calculate_hash]
    intro h
    exact stale_block_dump_ne b dp dq d status vname now h1 h2 h3 h4 hb hfresh
      (sha256hex_inj _ _ h)

/-- C1 witness: verifying the freshly sealed sample record as Approved by
HEC succeeds, rewrites only that record in its block, keeps the stored
hash, and leaves the stored hash different from the recomputed one. -/
theorem claim_C1_verify_leaves_stored_hash_stale_witness :
    verify_degree wState1 wDeg.degree_id cApproved cHEC tV
      = (true, { chain := [wGenesis] ++ verifiedBlock wSealed [] [] wDeg cApproved hecName tV :: [],
                 pending_degrees := wState1.pending_degrees }) ∧
    (verifiedBlock wSealed [] [] wDeg cApproved hecName tV).hash = wSealed.hash ∧
    calculate_hash (withHash (verifiedBlock wSealed [] [] wDeg cApproved hecName tV) strEmpty)
      ≠ (verifiedBlock wSealed [] [] wDeg cApproved hecName tV).hash :=
  claim_C1_verify_leaves_stored_hash_stale wState1 [wGenesis] [] wSealed [] [] wDeg
    wDeg.degree_id cApproved cHEC tV hecName (by decide) rfl rfl (by decide) (by decide)
    rfl rfl (by decide) (by decide) (by decide) rfl (by decide)

/-! ## The reader inverts the writer (claim C5): primitives -/

theorem skipWs_append_ws (w : List Char) (s : List Char) (h : isWsList w = true) :
    skipWs (w ++ s) = skipWs s := by
  induction w with
  | nil => rfl
  | cons c cs ih =>
    simp only [isWsList, List.all_cons, Bool.and_eq_true] at h
    simp only [List.cons_append, skipWs, h.1, if_pos]
    exact ih (by simpa [isWsList] using h.2)

theorem skipWs_cons_nonws (c : Char) (s : List Char) (h : wsChar c = false) :
    skipWs (c :: s) = c :: s := by
  simp [skipWs, h]

theorem parseChar_safe (c : Char) (w : List Char)
    (hw : isWsList w = true) (hc : wsChar c = false) (s : List Char) :
    parseChar c (w ++ c :: s) = some s := by
  simp [parseChar, skipWs_append_ws w _ hw, skipWs_cons_nonws c s hc]

theorem parseChar_cons (c : Char) (hc : wsChar c = false) (s : List Char) :
    parseChar c (c :: s) = some s :=
  parseChar_safe c [] rfl hc s

theorem string_mk_toList (s : String) : String.mk s.toList = s := by
  cases s
  rfl

theorem char_valid_ranges (c : Char) :
    c.toNat < 55296 ∨ (57344 ≤ c.toNat ∧ c.toNat < 1114112) := by
  have h := c.valid
  simp only [UInt32.isValidChar, Nat.isValidChar] at h
  rcases h with h | h
  · exact Or.inl h
  · exact Or.inr h

theorem hexVal_hexDigit : ∀ k < 16, hexVal (hexDigit k) = some k := by decide

theorem hex4_eq (n : Nat) :
    hex4 n = [hexDigit (n / 16 / 16 / 16 % 16), hexDigit (n / 16 / 16 % 16),
      hexDigit (n / 16 % 16), hexDigit (n % 16)] := by
  simp [hex4, hexN]

theorem hex4Val_digits (n : Nat) (h : n < 65536) :
    hex4Val (hexDigit (n / 16 / 16 / 16 % 16)) (hexDigit (n / 16 / 16 % 16))
      (hexDigit (n / 16 % 16)) (hexDigit (n % 16)) = some n := by
  rw [hex4Val, hexVal_hexDigit _ (Nat.mod_lt _ (by norm_num)),
    hexVal_hexDigit _ (Nat.mod_lt _ (by norm_num)),
    hexVal_hexDigit _ (Nat.mod_lt _ (by norm_num)),
    hexVal_hexDigit _ (Nat.mod_lt _ (by norm_num))]
  simp only [Option.some.injEq]
  omega

theorem surrogatePair_hex4 (n m : Nat) (t : List Char) (hm : 56320 ≤ m ∧ m ≤ 57343) :
    surrogatePair n (backslashChar :: 'u' :: (hex4 m ++ t))
      = some (Char.ofNat (65536 + 1024 * (n - 55296) + (m - 56320)), 10) := by
  rw [hex4_eq m]
  simp only [List.cons_append, List.nil_append, surrogatePair,
    eq_true (⟨by decide, rfl⟩ : backslashChar.toNat = 92 ∧ ('u' : Char) = 'u'), if_true,
    hex4Val_digits m (by omega : m < 65536), Option.some_bind]
  rw [if_pos hm, if_pos (⟨by decide, trivial⟩ : backslashChar.toNat = 92 ∧ True)]

theorem parseU_single (n : Nat) (t : List Char) (hlt : n < 65536)
    (hns : n < 55296 ∨ 57344 ≤ n) :
    parseU (hex4 n ++ t) = some (Char.ofNat n, 4) := by
  rw [hex4_eq n]
  simp only [List.cons_append, List.nil_append, parseU, hex4Val_digits n hlt,
    Option.some_bind]
  rw [if_neg (by omega : ¬(55296 ≤ n ∧ n ≤ 56319)),
    if_neg (by omega : ¬(56320 ≤ n ∧ n ≤ 57343))]

theorem parseU_pair (n m : Nat) (t : List Char)
    (hn : 55296 ≤ n ∧ n ≤ 56319) (hm : 56320 ≤ m ∧ m ≤ 57343) :
    parseU (hex4 n ++ (backslashChar :: 'u' :: (hex4 m ++ t)))
      = some (Char.ofNat (65536 + 1024 * (n - 55296) + (m - 56320)), 10) := by
  rw [hex4_eq n]
  simp only [List.cons_append, List.nil_append, parseU,
    hex4Val_digits n (by omega : n < 65536), Option.some_bind]
  rw [if_pos hn, surrogatePair_hex4 n m t hm]

theorem hex4_drop4 (n : Nat) (t : List Char) : (hex4 n ++ t).drop 4 = t := by
  rw [hex4_eq n]
  rfl

theorem hex4_pair_drop10 (n m : Nat) (t : List Char) :
    (hex4 n ++ (backslashChar :: 'u' :: (hex4 m ++ t))).drop 10 = t := by
  rw [hex4_eq n, hex4_eq m]
  rfl

theorem parseStrBody_twochar (e d : Char) (t : List Char)
    (he : ¬(e = 'u')) (hd : unescChar e = some d) :
    parseStrBody (backslashChar :: e :: t)
      = (parseStrBody t).map (fun p => (d :: p.1, p.2)) := by
  conv_lhs => unfold parseStrBody
  simp only [eq_false (by decide : ¬(backslashChar.toNat = 34)),
    eq_true (by decide : backslashChar.toNat = 92), eq_false he, if_false, if_true, hd]

theorem parseStrBody_raw (c : Char) (t : List Char)
    (h34 : ¬(c.toNat = 34)) (h92 : ¬(c.toNat = 92)) :
    parseStrBody (c :: t) = (parseStrBody t).map (fun p => (c :: p.1, p.2)) := by
  conv_lhs => unfold parseStrBody
  simp only [eq_false h34, eq_false h92, if_false]

theorem parseStrBody_u_single (n : Nat) (t : List Char) (hlt : n < 65536)
    (hns : n < 55296 ∨ 57344 ≤ n) :
    parseStrBody (backslashChar :: 'u' :: (hex4 n ++ t))
      = (parseStrBody t).map (fun p => (Char.ofNat n :: p.1, p.2)) := by
  conv_lhs => unfold parseStrBody
  simp only [eq_false (by decide : ¬(backslashChar.toNat = 34)),
    eq_true (by decide : backslashChar.toNat = 92), eq_self_iff_true, if_false, if_true,
    parseU_single n t hlt hns, hex4_drop4 n t]

theorem parseStrBody_u_pair (n m : Nat) (t : List Char)
    (hn : 55296 ≤ n ∧ n ≤ 56319) (hm : 56320 ≤ m ∧ m ≤ 57343) :
    parseStrBody (backslashChar :: 'u' :: (hex4 n ++ (backslashChar :: 'u' :: (hex4 m ++ t))))
      = (parseStrBody t).map
          (fun p => (Char.ofNat (65536 + 1024 * (n - 55296) + (m - 56320)) :: p.1, p.2)) := by
  conv_lhs => unfold parseStrBody
  simp only [eq_false (by decide : ¬(backslashChar.toNat = 34)),
    eq_true (by decide : backslashChar.toNat = 92), eq_self_iff_true, if_false, if_true,
    parseU_pair n m t hn hm, hex4_pair_drop10 n m t]

theorem parseStrBody_esc (c : Char) (t : List Char) :
    parseStrBody (escChar c ++ t) = (parseStrBody t).map (fun p => (c :: p.1, p.2)) := by
  by_cases h34 : c.toNat = 34
  · rw [char_toNat_inj c quoteChar (by rw [h34]; decide),
      show escChar quoteChar = [backslashChar, quoteChar] from rfl]
    exact parseStrBody_twochar quoteChar quoteChar t (by decide) (by decide)
  · by_cases h92 : c.toNat = 92
    · rw [char_toNat_inj c backslashChar (by rw [h92]; decide),
        show escChar backslashChar = [backslashChar, backslashChar] from rfl]
      exact parseStrBody_twochar backslashChar backslashChar t (by decide) (by decide)
    · by_cases h10 : c.toNat = 10
      · rw [char_toNat_inj c (Char.ofNat 10) (by rw [h10]; decide),
          show escChar (Char.ofNat 10) = [backslashChar, 'n'] from rfl]
        exact parseStrBody_twochar 'n' (Char.ofNat 10) t (by decide) (by decide)
      · by_cases h9 : c.toNat = 9
        · rw [char_toNat_inj c (Char.ofNat 9) (by rw [h9]; decide),
            show escChar (Char.ofNat 9) = [backslashChar, 't'] from rfl]
          exact parseStrBody_twochar 't' (Char.ofNat 9) t (by decide) (by decide)
        · by_cases h13 : c.toNat = 13
          · rw [char_toNat_inj c (Char.ofNat 13) (by rw [h13]; decide),
              show escChar (Char.ofNat 13) = [backslashChar, 'r'] from rfl]
            exact parseStrBody_twochar 'r' (Char.ofNat 13) t (by decide) (by decide)
          · by_cases h8 : c.toNat = 8
            · rw [char_toNat_inj c (Char.ofNat 8) (by rw [h8]; decide),
                show escChar (Char.ofNat 8) = [backslashChar, 'b'] from rfl]
              exact parseStrBody_twochar 'b' (Char.ofNat 8) t (by decide) (by decide)
            · by_cases h12 : c.toNat = 12
              · rw [char_toNat_inj c (Char.ofNat 12) (by rw [h12]; decide),
                  show escChar (Char.ofNat 12) = [backslashChar, 'f'] from rfl]
                exact parseStrBody_twochar 'f' (Char.ofNat 12) t (by decide) (by decide)
              · by_cases hc32 : c.toNat < 32
                · rw [show escChar c = backslashChar :: 'u' :: hex4 c.toNat from by
                    simp only [escChar]
                    rw [if_neg h34, if_neg h92, if_neg h10, if_neg h9, if_neg h13,
                      if_neg h8, if_neg h12, if_pos hc32]]
                  simp only [List.cons_append]
                  rw [parseStrBody_u_single c.toNat t (by omega) (by omega),
                    Char.ofNat_toNat]
                · by_cases hc127 : c.toNat < 127
                  · rw [show escChar c = [c] from by
                      simp only [escChar]
                      rw [if_neg h34, if_neg h92, if_neg h10, if_neg h9, if_neg h13,
                        if_neg h8, if_neg h12, if_neg (by omega), if_pos hc127]]
                    exact parseStrBody_raw c t h34 h92
                  · by_cases hc65536 : c.toNat < 65536
                    · have hv := char_valid_ranges c
                      rw [show escChar c = backslashChar :: 'u' :: hex4 c.toNat from by
                        simp only [escChar]
                        rw [if_neg h34, if_neg h92, if_neg h10, if_neg h9, if_neg h13,
                          if_neg h8, if_neg h12, if_neg (by omega), if_neg (by omega),
                          if_pos hc65536]]
                      simp only [List.cons_append]
                      rw [parseStrBody_u_single c.toNat t (by omega) (by omega),
                        Char.ofNat_toNat]
                    · have hv := char_valid_ranges c
                      rw [show escChar c
                            = (backslashChar :: 'u' :: hex4 (55296 + (c.toNat - 65536) / 1024)) ++
                              (backslashChar :: 'u' :: hex4 (56320 + (c.toNat - 65536) % 1024)) from by
                        simp only [escChar]
                        rw [if_neg h34, if_neg h92, if_neg h10, if_neg h9, if_neg h13,
                          if_neg h8, if_neg h12, if_neg (by omega), if_neg (by omega),
                          if_neg hc65536]]
                      simp only [List.cons_append, List.append_assoc]
                      rw [parseStrBody_u_pair (55296 + (c.toNat - 65536) / 1024)
                          (56320 + (c.toNat - 65536) % 1024) t
                          ⟨by omega, by omega⟩ ⟨by omega, by omega⟩]
                      rw [show 65536 + 1024 * (55296 + (c.toNat - 65536) / 1024 - 55296) +
                            (56320 + (c.toNat - 65536) % 1024 - 56320) = c.toNat from by omega,
                        Char.ofNat_toNat]

theorem parseStrBody_inv (l : List Char) (r : List Char) :
    parseStrBody ((l.map escChar).flatten ++ quoteChar :: r) = some (l, r) := by
  induction l with
  | nil =>
    simp only [List.map_nil, List.flatten_nil, List.nil_append]
    conv_lhs => unfold parseStrBody
    simp only [eq_true (by decide : quoteChar.toNat = 34), if_true]
  | cons c cs ih =>
    simp only [List.map_cons, List.flatten_cons, List.append_assoc]
    rw [parseStrBody_esc c _, ih]
    rfl

theorem parseStrLit_skip_ws (w X : List Char) (hw : isWsList w = true) :
    parseStrLit (w ++ X) = parseStrLit X := by
  unfold parseStrLit
  rw [skipWs_append_ws w X hw]

theorem parseStrLit_cons_quote (X : List Char) :
    parseStrLit (quoteChar :: X) = (parseStrBody X).map (fun p => (String.mk p.1, p.2)) := rfl

theorem parseStrLit_rt (s : String) (w tail : List Char)
    (hw : isWsList w = true) :
    parseStrLit (w ++ (jsonStr s ++ tail)) = some (s, tail) := by
  rw [parseStrLit_skip_ws _ _ hw]
  simp only [jsonStr, List.cons_append, List.append_assoc, List.singleton_append,
    List.nil_append]
  rw [parseStrLit_cons_quote, parseStrBody_inv s.toList tail]
  simp [string_mk_toList]

theorem parseStrOrNull_skip_ws (w X : List Char) (hw : isWsList w = true) :
    parseStrOrNull (w ++ X) = parseStrOrNull X := by
  unfold parseStrOrNull
  rw [skipWs_append_ws w X hw]

theorem parseStrOrNull_cons_quote (X : List Char) :
    parseStrOrNull (quoteChar :: X)
      = (parseStrBody X).map (fun p => (some (String.mk p.1), p.2)) := rfl

theorem parseStrOrNull_null (X : List Char) :
    parseStrOrNull ('n' :: 'u' :: 'l' :: 'l' :: X) = some (none, X) := rfl

theorem parseStrOrNull_some_rt (s : String) (w tail : List Char)
    (hw : isWsList w = true) :
    parseStrOrNull (w ++ (jsonStr s ++ tail)) = some (some s, tail) := by
  rw [parseStrOrNull_skip_ws _ _ hw]
  simp only [jsonStr, List.cons_append, List.append_assoc, List.singleton_append,
    List.nil_append]
  rw [parseStrOrNull_cons_quote, parseStrBody_inv s.toList tail]
  simp [string_mk_toList]

theorem parseStrOrNull_none_rt (w tail : List Char) (hw : isWsList w = true) :
    parseStrOrNull (w ++ (jsonOptStr none ++ tail)) = some (none, tail) := by
  rw [parseStrOrNull_skip_ws _ _ hw]
  simp only [jsonOptStr, List.cons_append, List.nil_append]
  rw [parseStrOrNull_null]

/-! ## The reader inverts the writer (claim C5): integers -/

theorem digitChar_toNat : ∀ n < 10, (digitChar n).toNat = 48 + n := by decide

theorem digit_not_ws (c : Char) (h : isDigitCh c = true) : wsChar c = false := by
  simp only [isDigitCh, Bool.and_eq_true, decide_eq_true_eq] at h
  simp only [wsChar, Bool.or_eq_false_iff, decide_eq_false_iff_not]
  omega

theorem natToDec_digits (n : Nat) : (natToDec n).all isDigitCh = true := by
  induction n using Nat.strong_induction_on with
  | _ n ih =>
    unfold natToDec
    split
    · rename_i h
      simp only [List.all_cons, List.all_nil, Bool.and_true]
      simp only [isDigitCh, digitChar_toNat n h, Bool.and_eq_true, decide_eq_true_eq]
      omega
    · rename_i h
      simp only [List.all_append, Bool.and_eq_true]
      refine ⟨ih (n / 10) (Nat.div_lt_self (by omega) (by omega)), ?_⟩
      simp only [List.all_cons, List.all_nil, Bool.and_true]
      simp only [isDigitCh, digitChar_toNat (n % 10) (Nat.mod_lt n (by omega)),
        Bool.and_eq_true, decide_eq_true_eq]
      omega

theorem natToDec_ne_nil (n : Nat) : natToDec n ≠ [] := by
  unfold natToDec
  split
  · simp
  · simp

theorem decToNat_append_digit (xs : List Char) (c : Char) :
    decToNat (xs ++ [c]) = 10 * decToNat xs + (c.toNat - 48) := by
  simp [decToNat, List.foldl_append]

theorem decToNat_natToDec (n : Nat) : decToNat (natToDec n) = n := by
  induction n using Nat.strong_induction_on with
  | _ n ih =>
    unfold natToDec
    split
    · rename_i h
      simp only [decToNat, List.foldl_cons, List.foldl_nil, digitChar_toNat n h]
      omega
    · rename_i h
      rw [decToNat_append_digit, ih (n / 10) (Nat.div_lt_self (by omega) (by omega)),
        digitChar_toNat (n % 10) (Nat.mod_lt n (by omega))]
      omega

theorem takeDigits_spec (ds : List Char) (rest : List Char)
    (hds : ds.all isDigitCh = true)
    (hrest : ∀ c, rest.head? = some c → isDigitCh c = false) :
    takeDigits (ds ++ rest) = (ds, rest) := by
  induction ds with
  | nil =>
    simp only [List.nil_append]
    cases rest with
    | nil => rfl
    | cons c r =>
      unfold takeDigits
      rw [if_neg (by simp [hrest c rfl])]
  | cons d ds' ih =>
    simp only [List.all_cons, Bool.and_eq_true] at hds
    simp only [List.cons_append]
    unfold takeDigits
    rw [if_pos hds.1, ih hds.2]

theorem parseNat_skip_ws (w X : List Char) (hw : isWsList w = true) :
    parseNat (w ++ X) = parseNat X := by
  unfold parseNat
  rw [skipWs_append_ws w X hw]

theorem parseNat_safe (n : Nat) (w rest : List Char) (hw : isWsList w = true)
    (hrest : ∀ c, rest.head? = some c → isDigitCh c = false) :
    parseNat (w ++ (natToDec n ++ rest)) = some (n, rest) := by
  rw [parseNat_skip_ws _ _ hw]
  obtain ⟨c, cs, hcons⟩ := List.exists_cons_of_ne_nil (natToDec_ne_nil n)
  have hdig := natToDec_digits n
  have hcdig : isDigitCh c = true := by
    rw [hcons] at hdig
    simp only [List.all_cons, Bool.and_eq_true] at hdig
    exact hdig.1
  have hskip : skipWs (natToDec n ++ rest) = natToDec n ++ rest := by
    rw [hcons, List.cons_append]
    exact skipWs_cons_nonws c _ (digit_not_ws c hcdig)
  unfold parseNat
  simp only [hskip, takeDigits_spec _ _ (natToDec_digits n) hrest]
  have hne : (natToDec n).isEmpty = false := by
    rw [hcons]
    rfl
  simp only [hne, Bool.false_eq_true, if_false, decToNat_natToDec n]

/-! ## The reader inverts the writer (claim C5): objects -/

theorem isWsList_nlPad (k : Nat) : isWsList (nlPad k) = true := by
  simp only [isWsList, nlPad, List.all_cons, Bool.and_eq_true]
  refine ⟨by decide, ?_⟩
  simp only [pad, List.all_eq_true]
  intro c hc
  rw [List.eq_of_mem_replicate hc]
  decide

theorem parseKey_rt (k : String) (w : List Char)
    (hw : isWsList w = true) (tail : List Char) :
    parseKey k (w ++ (jsonStr k ++ ':' :: tail)) = some tail := by
  unfold parseKey
  simp only [parseStrLit_rt k w (':' :: tail) hw, if_true]
  exact parseChar_safe ':' [] rfl (by decide) tail

theorem parseStrField_rt (k v : String) (w : List Char)
    (hw : isWsList w = true) (tail : List Char) :
    parseStrField k (w ++ (jsonStr k ++ ':' :: ' ' :: (jsonStr v ++ tail)))
      = some (v, tail) := by
  unfold parseStrField
  simp only [parseKey_rt k w hw (' ' :: (jsonStr v ++ tail))]
  exact parseStrLit_rt v [' '] tail (by decide)

theorem parseStrFieldC_rt (k v : String) (w : List Char)
    (hw : isWsList w = true) (tail : List Char) :
    parseStrFieldC k (',' :: (w ++ (jsonStr k ++ ':' :: ' ' :: (jsonStr v ++ tail))))
      = some (v, tail) := by
  unfold parseStrFieldC
  simp only [parseChar_cons ',' (by decide)]
  exact parseStrField_rt k v w hw tail

theorem parseOptFieldC_rt (k : String) (v : Option String) (w : List Char)
    (hw : isWsList w = true) (tail : List Char) :
    parseOptFieldC k (',' :: (w ++ (jsonStr k ++ ':' :: ' ' :: (jsonOptStr v ++ tail))))
      = some (v, tail) := by
  unfold parseOptFieldC
  simp only [parseChar_cons ',' (by decide)]
  simp only [parseKey_rt k w hw (' ' :: (jsonOptStr v ++ tail))]
  cases v with
  | none => exact parseStrOrNull_none_rt [' '] tail rfl
  | some s => exact parseStrOrNull_some_rt s [' '] tail rfl

theorem parseDegree_rt (lv : Nat) (d : Degree) (w : List Char)
    (hw : isWsList w = true) (rest : List Char) :
    parseDegree (w ++ (dumpDegreeSave lv d ++ rest)) = some (d, rest) := by
  simp only [dumpDegreeSave, dumpObj, degreeFieldsIns, kv, modeParts, joinWith,
    List.append_assoc, List.cons_append, List.nil_append]
  unfold parseDegree
  simp only [parseChar_safe lbrace w hw (by decide),
    parseStrField_rt kDegreeId d.degree_id (nlPad (lv + 1)) (isWsList_nlPad _),
    parseStrFieldC_rt kStudentName d.student_name (nlPad (lv + 1)) (isWsList_nlPad _),
    parseStrFieldC_rt kDegreeTitle d.degree_title (nlPad (lv + 1)) (isWsList_nlPad _),
    parseStrFieldC_rt kInstitution d.institution (nlPad (lv + 1)) (isWsList_nlPad _),
    parseStrFieldC_rt kIssueDate d.issue_date (nlPad (lv + 1)) (isWsList_nlPad _),
    parseStrFieldC_rt kDocumentHash d.document_hash (nlPad (lv + 1)) (isWsList_nlPad _),
    parseStrFieldC_rt kStatus d.status (nlPad (lv + 1)) (isWsList_nlPad _),
    parseOptFieldC_rt kVerifiedBy d.verified_by (nlPad (lv + 1)) (isWsList_nlPad _),
    parseOptFieldC_rt kVerificationDate d.verification_date (nlPad (lv + 1))
      (isWsList_nlPad _),
    parseChar_safe rbrace (nlPad lv) (isWsList_nlPad _) (by decide)]

/-! ## The reader inverts the writer (claim C5): arrays -/

theorem dumpArr_some_of_ne_nil (a : Nat) (items : List (List Char)) (h : items ≠ []) :
    dumpArr (some a) items
      = '[' :: (nlPad (a + 1) ++ (joinWith (',' :: nlPad (a + 1)) items ++
          (nlPad a ++ [']']))) := by
  cases items with
  | nil => exact absurd rfl h
  | cons x xs => simp [dumpArr, modeParts, List.append_assoc]

theorem joinWith_length_ge (sep : List Char) (items : List (List Char))
    (h : ∀ x ∈ items, 1 ≤ x.length) : items.length ≤ (joinWith sep items).length := by
  induction items with
  | nil => simp
  | cons x xs ih =>
    cases xs with
    | nil => simpa [joinWith] using h x (List.mem_cons_self x [])
    | cons y ys =>
      rw [joinWith_cons_of_ne sep x _ (by simp)]
      simp only [List.length_cons, List.length_append]
      have h1 := h x (List.mem_cons_self x (y :: ys))
      have h2 := ih (fun z hz => h z (List.mem_cons_of_mem x hz))
      simp only [List.length_cons] at h2
      omega

theorem dumpObj_length_pos (m : Option Nat) (fields : List (List Char)) :
    1 ≤ (dumpObj m fields).length := by
  simp [dumpObj]

theorem parseNat_comma (n : Nat) (w : List Char) (hw : isWsList w = true)
    (tail : List Char) :
    parseNat (w ++ (natToDec n ++ ',' :: tail)) = some (n, ',' :: tail) :=
  parseNat_safe n w (',' :: tail) hw
    (by
      intro c hc
      simp only [List.head?_cons, Option.some.injEq] at hc
      rw [← hc]
      decide)

theorem parseDegreeList_rt (a : Nat) (ds : List Degree) :
    ds ≠ [] →
    ∀ fuel, ds.length ≤ fuel → ∀ w, isWsList w = true →
    ∀ u rest, skipWs u = ']' :: rest →
    parseDegreeList fuel
      (w ++ (joinWith (',' :: nlPad (a + 1)) (ds.map (dumpDegreeSave (a + 1))) ++ u))
      = some (ds, rest) := by
  induction ds with
  | nil => intro hne; exact absurd rfl hne
  | cons d ds' ih =>
    intro _ fuel hfuel w hw u rest hu
    cases fuel with
    | zero => simp at hfuel
    | succ f =>
      cases ds' with
      | nil =>
        simp only [List.map_cons, List.map_nil, joinWith]
        unfold parseDegreeList
        simp only [parseDegree_rt (a + 1) d w hw u, hu, if_true]
      | cons d2 ds'' =>
        simp only [List.map_cons]
        rw [joinWith_cons_of_ne _ _ _ (by simp)]
        simp only [List.append_assoc, List.cons_append]
        unfold parseDegreeList
        have hrec := ih (by simp) f
          (by simp only [List.length_cons] at hfuel ⊢; omega)
          (nlPad (a + 1)) (isWsList_nlPad _) u rest hu
        simp only [List.map_cons] at hrec
        simp only [parseDegree_rt (a + 1) d w hw,
          skipWs_cons_nonws ',' _ (by decide),
          eq_false (by decide : ¬ ((',' : Char) = ']')),
          eq_true (rfl : (',' : Char) = ','), if_false, if_true, hrec]

theorem parseDegrees_rt (a : Nat) (ds : List Degree)
    (w : List Char) (hw : isWsList w = true)
    (rest : List Char) :
    parseDegrees (w ++ (dumpArr (some a) (ds.map (dumpDegreeSave (a + 1))) ++ rest))
      = some (ds, rest) := by
  cases ds with
  | nil =>
    simp only [List.map_nil,
      show (dumpArr (some a) ([] : List (List Char)) : List Char) = ['[', ']'] from rfl]
    simp only [List.cons_append, List.nil_append]
    unfold parseDegrees
    simp only [parseChar_safe '[' w hw (by decide),
      skipWs_cons_nonws ']' rest (by decide),
      eq_true (rfl : (']' : Char) = ']'), if_true]
  | cons d ds' =>
    rw [dumpArr_some_of_ne_nil a _ (by simp)]
    simp only [List.cons_append, List.append_assoc, List.singleton_append, List.nil_append]
    unfold parseDegrees
    simp only [parseChar_safe '[' w hw (by decide)]
    have hhead : ∃ X, skipWs (nlPad (a + 1) ++
        (joinWith (',' :: nlPad (a + 1)) ((d :: ds').map (dumpDegreeSave (a + 1))) ++
          (nlPad a ++ ']' :: rest))) = lbrace :: X := by
      rw [skipWs_append_ws _ _ (isWsList_nlPad _)]
      cases ds' with
      | nil =>
        simp only [List.map_cons, List.map_nil, joinWith, dumpDegreeSave, dumpObj,
          List.cons_append, List.append_assoc]
        exact ⟨_, skipWs_cons_nonws lbrace _ (by decide)⟩
      | cons d2 ds'' =>
        simp only [List.map_cons]
        rw [joinWith_cons_of_ne _ _ _ (by simp)]
        simp only [dumpDegreeSave, dumpObj, List.cons_append, List.append_assoc]
        exact ⟨_, skipWs_cons_nonws lbrace _ (by decide)⟩
    obtain ⟨X, hX⟩ := hhead
    simp only [hX, eq_false (by decide : ¬ (lbrace = (']' : Char))), if_false]
    have hu : skipWs (nlPad a ++ ']' :: rest) = ']' :: rest := by
      rw [skipWs_append_ws _ _ (isWsList_nlPad _)]
      exact skipWs_cons_nonws ']' rest (by decide)
    apply parseDegreeList_rt a (d :: ds') (by simp) _ ?hlen
      (nlPad (a + 1)) (isWsList_nlPad _) (nlPad a ++ ']' :: rest) rest hu
    case hlen =>
      have hjoin := joinWith_length_ge (',' :: nlPad (a + 1))
        ((d :: ds').map (dumpDegreeSave (a + 1)))
        (by
          intro x hx
          obtain ⟨g, _, rfl⟩ := List.mem_map.mp hx
          exact dumpObj_length_pos _ _)
      simp only [List.length_map, List.length_cons] at hjoin
      simp only [List.length_append, List.length_cons]
      omega

/-! ## The reader inverts the writer (claim C5): blocks and the chain -/

theorem parseNat_space (n : Nat) (tail : List Char) :
    parseNat (' ' :: (natToDec n ++ ',' :: tail)) = some (n, ',' :: tail) :=
  parseNat_comma n [' '] (by decide) tail

theorem parseDegrees_space (a : Nat) (ds : List Degree) (tail : List Char) :
    parseDegrees (' ' :: (dumpArr (some a) (ds.map (dumpDegreeSave (a + 1))) ++ tail))
      = some (ds, tail) :=
  parseDegrees_rt a ds [' '] (by decide) tail

theorem parseBlock_rt (lv : Nat) (b : Block) (w : List Char)
    (hw : isWsList w = true) (rest : List Char) :
    parseBlock (w ++ (dumpBlockSave lv b ++ rest)) = some (b, rest) := by
  simp only [dumpBlockSave, dumpObj, blockFieldsIns, kv, modeParts, joinWith,
    List.append_assoc, List.cons_append, List.nil_append]
  unfold parseBlock
  simp only [parseChar_safe lbrace w hw (by decide),
    parseKey_rt kIndex (nlPad (lv + 1)) (isWsList_nlPad _),
    parseNat_space b.index,
    parseStrFieldC_rt kTimestamp b.timestamp (nlPad (lv + 1)) (isWsList_nlPad _),
    parseChar_cons ',' (by decide),
    parseKey_rt kDegrees (nlPad (lv + 1)) (isWsList_nlPad _),
    parseDegrees_space (lv + 1) b.degrees,
    parseStrFieldC_rt kPreviousHash b.previous_hash (nlPad (lv + 1)) (isWsList_nlPad _),
    parseStrFieldC_rt kHash b.hash (nlPad (lv + 1)) (isWsList_nlPad _),
    parseChar_safe rbrace (nlPad lv) (isWsList_nlPad _) (by decide)]

theorem parseBlockList_rt (a : Nat) (bs : List Block) :
    bs ≠ [] →
    ∀ fuel, bs.length ≤ fuel → ∀ w, isWsList w = true →
    ∀ u rest, skipWs u = ']' :: rest →
    parseBlockList fuel
      (w ++ (joinWith (',' :: nlPad (a + 1)) (bs.map (dumpBlockSave (a + 1))) ++ u))
      = some (bs, rest) := by
  induction bs with
  | nil => intro hne; exact absurd rfl hne
  | cons b bs' ih =>
    intro _ fuel hfuel w hw u rest hu
    cases fuel with
    | zero => simp at hfuel
    | succ f =>
      cases bs' with
      | nil =>
        simp only [List.map_cons, List.map_nil, joinWith]
        unfold parseBlockList
        simp only [parseBlock_rt (a + 1) b w hw u, hu, if_true]
      | cons b2 bs'' =>
        simp only [List.map_cons]
        rw [joinWith_cons_of_ne _ _ _ (by simp)]
        simp only [List.append_assoc, List.cons_append]
        unfold parseBlockList
        have hrec := ih (by simp) f
          (by simp only [List.length_cons] at hfuel ⊢; omega)
          (nlPad (a + 1)) (isWsList_nlPad _) u rest hu
        simp only [List.map_cons] at hrec
        simp only [parseBlock_rt (a + 1) b w hw,
          skipWs_cons_nonws ',' _ (by decide),
          eq_false (by decide : ¬ ((',' : Char) = ']')),
          eq_true (rfl : (',' : Char) = ','), if_false, if_true, hrec]

theorem parseBlocks_rt (a : Nat) (bs : List Block)
    (w : List Char) (hw : isWsList w = true)
    (rest : List Char) :
    parseBlocks (w ++ (dumpArr (some a) (bs.map (dumpBlockSave (a + 1))) ++ rest))
      = some (bs, rest) := by
  cases bs with
  | nil =>
    simp only [List.map_nil,
      show (dumpArr (some a) ([] : List (List Char)) : List Char) = ['[', ']'] from rfl]
    simp only [List.cons_append, List.nil_append]
    unfold parseBlocks
    simp only [parseChar_safe '[' w hw (by decide),
      skipWs_cons_nonws ']' rest (by decide),
      eq_true (rfl : (']' : Char) = ']'), if_true]
  | cons b bs' =>
    rw [dumpArr_some_of_ne_nil a _ (by simp)]
    simp only [List.cons_append, List.append_assoc, List.singleton_append, List.nil_append]
    unfold parseBlocks
    simp only [parseChar_safe '[' w hw (by decide)]
    have hhead : ∃ X, skipWs (nlPad (a + 1) ++
        (joinWith (',' :: nlPad (a + 1)) ((b :: bs').map (dumpBlockSave (a + 1))) ++
          (nlPad a ++ ']' :: rest))) = lbrace :: X := by
      rw [skipWs_append_ws _ _ (isWsList_nlPad _)]
      cases bs' with
      | nil =>
        simp only [List.map_cons, List.map_nil, joinWith, dumpBlockSave, dumpObj,
          List.cons_append, List.append_assoc]
        exact ⟨_, skipWs_cons_nonws lbrace _ (by decide)⟩
      | cons b2 bs'' =>
        simp only [List.map_cons]
        rw [joinWith_cons_of_ne _ _ _ (by simp)]
        simp only [dumpBlockSave, dumpObj, List.cons_append, List.append_assoc]
        exact ⟨_, skipWs_cons_nonws lbrace _ (by decide)⟩
    obtain ⟨X, hX⟩ := hhead
    simp only [hX, eq_false (by decide : ¬ (lbrace = (']' : Char))), if_false]
    have hu : skipWs (nlPad a ++ ']' :: rest) = ']' :: rest := by
      rw [skipWs_append_ws _ _ (isWsList_nlPad _)]
      exact skipWs_cons_nonws ']' rest (by decide)
    apply parseBlockList_rt a (b :: bs') (by simp) _ ?hlen2
      (nlPad (a + 1)) (isWsList_nlPad _) (nlPad a ++ ']' :: rest) rest hu
    case hlen2 =>
      have hjoin := joinWith_length_ge (',' :: nlPad (a + 1))
        ((b :: bs').map (dumpBlockSave (a + 1)))
        (by
          intro x hx
          obtain ⟨g, _, rfl⟩ := List.mem_map.mp hx
          exact dumpObj_length_pos _ _)
      simp only [List.length_map, List.length_cons] at hjoin
      simp only [List.length_append, List.length_cons]
      omega

/-- C5: for every chain, writing the file `save_blockchain` produces and
reading it back with `load_blockchain` returns a chain equal in all fields —
`persist` followed by `load` is the identity.  The reader decodes every
escape the writer emits (including `\uXXXX` and surrogate pairs), so no
safety assumption on the stored strings is needed. -/
theorem claim_C5_persist_then_load_roundtrip (chain : List Block) :
    load_blockchain (some (save_blockchain chain)) = chain := by
  have hp := parseBlocks_rt 0 chain [] rfl []
  simp only [List.nil_append, List.append_nil, Nat.zero_add] at hp
  simp only [load_blockchain, save_blockchain, hp, skipWs, List.isEmpty_nil, if_true]

end HecChain
